import Mathlib

/-!
# Verification of the aurman dependency-resolution core

Shallow embedding of `src/aurman/classes.py` (Package, System, the
dependency solver `solutions_for_dep_problem` / `dep_solving`, the
hypothetical system mutator and the plan selector), together with proofs
about the embedded definitions.

Python `set`s of strings and of packages are modelled as lists with
membership-based insertion; Python `dict`s (which preserve insertion
order and have unique keys) are modelled as association lists.
Package equality in the source (`Package.__eq__`) compares only
`(name, version)`; we mirror this with `pkgEq` and use it for every
membership / index operation, exactly as the Python `in` / `.index`
operators do.

General recursion (the solver's recursive backtracking search and the
`while` loops of the hypothetical mutator) is rendered with an explicit
fuel parameter; exhausted fuel yields `none` (respectively a dedicated
`fuelOut` result), which is distinguished from the `InvalidInput`
exceptions the source can raise (duplicate package names inserted into
one `System`).
-/

set_option autoImplicit false

/-- Modelled from the spec: `split_name_with_versioning` from
`aurman.utilities` (not under `src/`): splits a dependency atom on the
first occurrence of any of `>=, <=, ==, =, >, <` (longest match wins);
an absent operator yields `("", "")`. Works on the character list;
`splitAtomChars cs` returns `(name, op, version)` as character lists. -/
def splitAtomChars : List Char → (List Char × List Char × List Char)
  | [] => ([], [], [])
  | c :: rest =>
    if c = '<' ∨ c = '>' then
      match rest with
      | '=' :: rest2 => ([], [c, '='], rest2)
      | _ => ([], [c], rest)
    else if c = '=' then
      match rest with
      | '=' :: rest2 => ([], ['=', '='], rest2)
      | _ => ([], ['='], rest)
    else
      let (n, o, v) := splitAtomChars rest
      (c :: n, o, v)

/-- Modelled from the spec: `split_name_with_versioning(dep)` returns the
triple `(name, operator, version)` of a dependency atom. -/
def split_name_with_versioning (dep : String) : String × String × String :=
  let (n, o, v) := splitAtomChars dep.toList
  (String.mk n, String.mk o, String.mk v)

/-- Modelled from the spec: `strip_versioning_from_name(dep)` returns only
the name portion of a dependency atom. -/
def strip_versioning_from_name (dep : String) : String :=
  (split_name_with_versioning dep).1

/-- Numeric value of a digit run (used by the version tokenizer). -/
def natOfDigits (cs : List Char) : Nat :=
  cs.foldl (fun a c => a * 10 + (c.toNat - 48)) 0

/-- Modelled from the spec: tokenizer for the "segmented numeric/alpha
comparison" of version strings: maximal digit runs become numeric
tokens, maximal alphabetic runs become string tokens, every other
character only separates segments. -/
def versionTokens : List Char → List (Sum Nat String)
  | [] => []
  | c :: rest =>
    if c.isDigit then
      Sum.inl (natOfDigits (c :: rest.takeWhile Char.isDigit)) ::
        versionTokens (rest.dropWhile Char.isDigit)
    else if c.isAlpha then
      Sum.inr (String.mk (c :: rest.takeWhile Char.isAlpha)) ::
        versionTokens (rest.dropWhile Char.isAlpha)
    else
      versionTokens rest
termination_by cs => cs.length
decreasing_by
  · exact Nat.lt_succ_of_le (List.Sublist.length_le
      (List.IsSuffix.sublist (List.dropWhile_suffix _)))
  · exact Nat.lt_succ_of_le (List.Sublist.length_le
      (List.IsSuffix.sublist (List.dropWhile_suffix _)))
  · exact Nat.lt_succ_self _

/-- Modelled from the spec: lexicographic comparison of version token
lists; numeric segments compare numerically and are newer than
alphabetic segments, alphabetic segments compare as strings. -/
def cmpTokens : List (Sum Nat String) → List (Sum Nat String) → Ordering
  | [], [] => Ordering.eq
  | [], _ :: _ => Ordering.lt
  | _ :: _, [] => Ordering.gt
  | Sum.inl a :: as, Sum.inl b :: bs =>
    if a < b then Ordering.lt else if b < a then Ordering.gt else cmpTokens as bs
  | Sum.inr _ :: _, Sum.inl _ :: _ => Ordering.lt
  | Sum.inl _ :: _, Sum.inr _ :: _ => Ordering.gt
  | Sum.inr a :: as, Sum.inr b :: bs =>
    if a < b then Ordering.lt else if b < a then Ordering.gt else cmpTokens as bs

/-- Modelled from the spec: split an epoch prefix `N:` off a version
string (default epoch 0). -/
def splitEpoch (s : String) : Nat × String :=
  match s.splitOn ":" with
  | [] => (0, s)
  | [v] => (0, v)
  | e :: rest => (natOfDigits (e.toList.filter Char.isDigit), String.intercalate ":" rest)

/-- Modelled from the spec: split a release suffix `-R` off a version
string. -/
def splitRelease (s : String) : String × String :=
  match s.splitOn "-" with
  | [] => (s, "")
  | [v] => (v, "")
  | v :: rest => (v, String.intercalate "-" rest)

/-- Modelled from the spec: total ordering on version strings
("segmented numeric/alpha comparison with epoch `N:` prefix and release
`-R` suffix"). -/
def cmpVersion (v1 v2 : String) : Ordering :=
  let (e1, m1) := splitEpoch v1
  let (e2, m2) := splitEpoch v2
  if e1 < e2 then Ordering.lt
  else if e2 < e1 then Ordering.gt
  else
    let (b1, r1) := splitRelease m1
    let (b2, r2) := splitRelease m2
    match cmpTokens (versionTokens b1.toList) (versionTokens b2.toList) with
    | Ordering.lt => Ordering.lt
    | Ordering.gt => Ordering.gt
    | Ordering.eq =>
      if r1 = "" ∨ r2 = "" then Ordering.eq
      else cmpTokens (versionTokens r1.toList) (versionTokens r2.toList)

/-- Modelled from the spec: `version_comparison(v1, op, v2)` from
`aurman.utilities` (not under `src/`) evaluates whether `v1 op v2` holds
under the version ordering; `=` and `==` are equivalent. -/
def version_comparison (v1 cmp v2 : String) : Bool :=
  match cmpVersion v1 v2 with
  | Ordering.lt => cmp = "<" ∨ cmp = "<="
  | Ordering.eq => cmp = "<=" ∨ cmp = "=" ∨ cmp = "==" ∨ cmp = ">="
  | Ordering.gt => cmp = ">" ∨ cmp = ">="

/-- `PossibleTypes`: the possible classifications of packages
(`classes.py`, lines 15-22). `PACKAGE_NOT_REPO_NOT_AUR` is the FOREIGN
classification of the spec. -/
inductive PossibleTypes where
  | REPO_PACKAGE
  | AUR_PACKAGE
  | DEVEL_PACKAGE
  | PACKAGE_NOT_REPO_NOT_AUR
deriving DecidableEq, Repr

/-- `Package` (`classes.py`, lines 118-275): the fields relevant to the
dependency-resolution core. `depends`, `makedepends`, `checkdepends` and
`required_by` keep the Python `None` default as `Option` because the
source branches on `is not None`; `provides` and `conflicts` are
iterated without a `None` guard by every code path we embed, so they are
plain lists. -/
structure Package where
  name : String
  version : String
  depends : Option (List String) := none
  conflicts : List String := []
  required_by : Option (List String) := none
  provides : List String := []
  makedepends : Option (List String) := none
  checkdepends : Option (List String) := none
  type_of : PossibleTypes
deriving DecidableEq, Repr

/-- `Package.__eq__` (lines 268-269): equality compares `(name, version)`
only. Used for every `in` / `.index` operation on packages. -/
def pkgEq (p q : Package) : Bool :=
  p.name == q.name && p.version == q.version

/-- Python `package in list` under `Package.__eq__`. -/
def memPkg (p : Package) (l : List Package) : Bool :=
  l.any (pkgEq p)

/-- Python `list.index(package)` under `Package.__eq__`. -/
def indexOfPkg (l : List Package) (p : Package) : Nat :=
  l.findIdx (fun q => pkgEq q p)

/-- Python `list(set(packages))`: deduplicate under `Package.__eq__`,
keeping first occurrences (a deterministic stand-in for the arbitrary
iteration order of a Python set; all downstream uses are
membership-based). -/
def dedupPkg (l : List Package) : List Package :=
  l.foldl (fun acc p => if memPkg p acc then acc else acc ++ [p]) []

/-- Python `set.add` on a package set represented as a list. -/
def addPkgIfAbsent (l : List Package) (p : Package) : List Package :=
  if memPkg p l then l else l ++ [p]

/-- Python `set.add` on a string set represented as a list. -/
def insertStr (l : List String) (s : String) : List String :=
  if l.contains s then l else l ++ [s]

/-- `Package.relevant_deps` (lines 277-294): concatenation of `depends`,
`makedepends` and `checkdepends`, each skipped when `None`. NOTE: the
source does not branch on the classification here. -/
def Package.relevant_deps (p : Package) : List String :=
  (p.depends.getD []) ++ (p.makedepends.getD []) ++ (p.checkdepends.getD [])

/-- `System` (lines 724-783): a collection of packages with three
indexes. `all_packages_dict` maps names to packages (insertion-ordered,
unique keys); `provides_dict` and `conflicts_dict` map a stripped
provide / conflict name to the packages declaring it. The four
classification member lists of the source are projections never read by
the embedded code paths and are omitted. -/
structure System where
  all_packages_dict : List (String × Package)
  provides_dict : List (String × List Package)
  conflicts_dict : List (String × List Package)
deriving DecidableEq, Repr

/-- First-match association-list lookup (Python `dict[key]` /
`key in dict`). -/
def lookupAssoc {α : Type} (l : List (String × α)) (k : String) : Option α :=
  match l.find? (fun kv => kv.1 == k) with
  | none => none
  | some kv => some kv.2

/-- `name in self.all_packages_dict` followed by the lookup. -/
def System.lookupName (s : System) (n : String) : Option Package :=
  lookupAssoc s.all_packages_dict n

/-- The member packages of a system (`self.all_packages_dict.values()`). -/
def System.packagesList (s : System) : List Package :=
  s.all_packages_dict.map (fun kv => kv.2)

/-- Append `package` to the list stored under `value_name`, creating the
entry if absent (`System.__append_to_x_dict`, lines 811-822, inner
body). -/
def upsertXDict (d : List (String × List Package)) (value_name : String) (p : Package) :
    List (String × List Package) :=
  if (d.find? (fun kv => kv.1 == value_name)).isSome then
    d.map (fun kv => if kv.1 == value_name then (kv.1, kv.2 ++ [p]) else kv)
  else
    d ++ [(value_name, [p])]

/-- `System.__append_to_x_dict` (lines 811-822) for one package. -/
def appendToXDictOne (d : List (String × List Package)) (p : Package) (vals : List String) :
    List (String × List Package) :=
  vals.foldl (fun d v => upsertXDict d (strip_versioning_from_name v) p) d

/-- `System.__append_to_x_dict` (lines 811-822). -/
def appendToXDict (d : List (String × List Package)) (ps : List Package)
    (proj : Package → List String) : List (String × List Package) :=
  ps.foldl (fun d p => appendToXDictOne d p (proj p)) d

/-- The first loop of `System.append_packages` (lines 791-796): insert
each package into `all_packages_dict`; a duplicate name raises
`InvalidInput`, rendered as `none`. -/
def addNameDict (d : List (String × Package)) : List Package → Option (List (String × Package))
  | [] => some d
  | p :: ps =>
    if (d.find? (fun kv => kv.1 == p.name)).isSome then none
    else addNameDict (d ++ [(p.name, p)]) ps

/-- `System.append_packages` (lines 785-809): `none` models the
`InvalidInput` exception on a duplicate package name. -/
def System.append_packages (s : System) (ps : List Package) : Option System :=
  match addNameDict s.all_packages_dict ps with
  | none => none
  | some d =>
    some { all_packages_dict := d,
           provides_dict := appendToXDict s.provides_dict ps (fun p => p.provides),
           conflicts_dict := appendToXDict s.conflicts_dict ps (fun p => p.conflicts) }

/-- The empty system. -/
def emptySystem : System := ⟨[], [], []⟩

/-- `System.__init__` (lines 771-783): build a system from a package
sequence; `none` models the `InvalidInput` exception on duplicate
names. -/
def System.ofPackages (ps : List Package) : Option System :=
  emptySystem.append_packages ps

/-- `System.provided_by` (lines 824-863). Note that the
already-included check on a candidate provider happens once, before its
`provides` list is scanned, so a package with several matching provides
is appended once per matching provide. -/
def System.provided_by (s : System) (dep : String) : List Package :=
  let (dep_name, dep_cmp, dep_version) := split_name_with_versioning dep
  let return_list :=
    match s.lookupName dep_name with
    | none => []
    | some package =>
      if dep_cmp == "" then [package]
      else if version_comparison package.version dep_cmp dep_version then [package]
      else []
  match lookupAssoc s.provides_dict dep_name with
  | none => return_list
  | some possible_packages =>
    possible_packages.foldl
      (fun acc package =>
        if memPkg package acc then acc
        else
          acc ++ package.provides.foldl
            (fun acc2 provide =>
              let (provide_name, provide_cmp, provide_version) := split_name_with_versioning provide
              if provide_name != dep_name then acc2
              else if dep_cmp == "" then acc2 ++ [package]
              else if (provide_cmp == "=" || provide_cmp == "==") &&
                  version_comparison provide_version dep_cmp dep_version then acc2 ++ [package]
              else if (provide_cmp == "") &&
                  version_comparison package.version dep_cmp dep_version then acc2 ++ [package]
              else acc2)
            [])
      return_list

/-- `System.conflicting_with` (lines 865-916). -/
def System.conflicting_with (s : System) (package : Package) : List Package :=
  let name := package.name
  let version := package.version
  let return_list :=
    match s.lookupName name with
    | none => []
    | some possible_conflict_package =>
      if version != possible_conflict_package.version then [possible_conflict_package] else []
  let return_list :=
    package.conflicts.foldl
      (fun acc conflict =>
        let (conflict_name, conflict_cmp, conflict_version) := split_name_with_versioning conflict
        match s.lookupName conflict_name with
        | none => acc
        | some possible_conflict_package =>
          if memPkg possible_conflict_package acc then acc
          else if conflict_cmp == "" then acc ++ [possible_conflict_package]
          else if version_comparison possible_conflict_package.version conflict_cmp
              conflict_version then acc ++ [possible_conflict_package]
          else acc)
      return_list
  match lookupAssoc s.conflicts_dict name with
  | none => return_list
  | some possible_conflict_packages =>
    possible_conflict_packages.foldl
      (fun acc possible_conflict_package =>
        if memPkg possible_conflict_package acc then acc
        else
          acc ++ possible_conflict_package.conflicts.foldl
            (fun acc2 conflict =>
              let (conflict_name, conflict_cmp, conflict_version) :=
                split_name_with_versioning conflict
              if conflict_name != name then acc2
              else if conflict_cmp == "" then acc2 ++ [possible_conflict_package]
              else if version_comparison version conflict_cmp conflict_version then
                acc2 ++ [possible_conflict_package]
              else acc2)
            [])
      return_list

/-- `System.are_all_deps_fulfilled` (lines 940-951). -/
def System.are_all_deps_fulfilled (s : System) (package : Package) : Bool :=
  package.relevant_deps.all (fun dep => !(s.provided_by dep).isEmpty)

/-- `DepAlgoSolution` (lines 25-34). `visited_names` is the Python set
`visited_names` as an insertion-ordered list. -/
structure DepAlgoSolution where
  packages_in_solution : List Package
  visited_packages : List Package
  visited_names : List String
  is_valid : Bool
deriving DecidableEq, Repr

/-- The three `DepAlgoFoundProblems` subclasses (lines 37-115):
`DepAlgoCycle`, `DepAlgoConflict`, `DepAlgoNotProvided`. -/
inductive Problem where
  | cycle (cycle_packages : List Package)
  | conflict (conflicting_packages : List Package) (way_to_conflict : List Package)
  | notProvided (dep_not_provided : String) (package : Package)
deriving DecidableEq, Repr

/-- Elementwise package-list equality under `Package.__eq__`
(Python tuple equality of package tuples). -/
def listPkgEq : List Package → List Package → Bool
  | [], [] => true
  | p :: ps, q :: qs => pkgEq p q && listPkgEq ps qs
  | _, _ => false

/-- Package-set equality under `Package.__eq__` (Python `frozenset`
equality). -/
def setPkgEq (a b : List Package) : Bool :=
  a.all (fun p => memPkg p b) && b.all (fun p => memPkg p a)

/-- Structural problem equality as defined by the `__eq__` methods of the
three problem classes (lines 58-59, 82-84, 107-109): cycles compare
their package tuples, conflicts compare the conflicting set and the way
tuple, not-provided records compare the dep string and the package. -/
def probEq : Problem → Problem → Bool
  | Problem.cycle a, Problem.cycle b => listPkgEq a b
  | Problem.conflict sa wa, Problem.conflict sb wb => setPkgEq sa sb && listPkgEq wa wb
  | Problem.notProvided da pa, Problem.notProvided db pb => da == db && pkgEq pa pb
  | _, _ => false

/-- `found_problems.add(problem)`: the Python set deduplicates under the
problems' `__eq__`. -/
def addProblem (probs : List Problem) (p : Problem) : List Problem :=
  if probs.any (probEq p) then probs else probs ++ [p]

/-- `p ∈ found_problems` under the problems' `__eq__`. -/
def memProb (p : Problem) (probs : List Problem) : Bool :=
  probs.any (probEq p)

/-- The relevant packages of a problem (`get_relevant_packages`,
lines 42-43, 64-65, 89-90, 114-115). -/
def Problem.get_relevant_packages : Problem → List Package
  | Problem.cycle cycle_packages => cycle_packages
  | Problem.conflict conflicting_packages _ => conflicting_packages
  | Problem.notProvided _ package => [package]

/-- `min([solution.visited_packages.index(package) for package in
conflict_system])` (line 331). -/
def minIndexOf (visited : List Package) : List Package → Nat
  | [] => 0
  | c :: cs => (cs.map (indexOfPkg visited)).foldl Nat.min (indexOfPkg visited c)

/-- The conflict record built at lines 334-335:
`DepAlgoConflict(set(conflict_system), way)` followed by
`.conflicting_packages.add(self)`. -/
def mkConflictSet (conflict_system : List Package) (self : Package) : List Package :=
  addPkgIfAbsent (dedupPkg conflict_system) self

/-- Lines 362-365: on an unfulfillable dep, mark every current solution
that has not yet visited `dep` as invalid and record `dep` as
visited. -/
def markNotFulfilled (dep : String) (sols : List DepAlgoSolution) : List DepAlgoSolution :=
  sols.map (fun solution =>
    if solution.visited_names.contains dep then solution
    else { solution with is_valid := false, visited_names := insertStr solution.visited_names dep })

/-- Lines 372-384: split the current solutions into those that already
visited `dep` (`finished`) and the rest; each not-yet-finished solution
records `dep` as visited, and moves to `finished` if its own
`packages_in_solution` already provides `dep` (the `System` built from
it may raise on duplicate names, hence `Option`). Returns
`(finished ++ provided, still_not_finished)` in source order. -/
def splitFinished (dep : String) (sols : List DepAlgoSolution) :
    Option (List DepAlgoSolution × List DepAlgoSolution) :=
  let finished0 := sols.filter (fun s => s.visited_names.contains dep)
  let not_finished0 := sols.filter (fun s => !s.visited_names.contains dep)
  let rec go : List DepAlgoSolution → Option (List DepAlgoSolution × List DepAlgoSolution)
    | [] => some ([], [])
    | s :: ss =>
      let s' := { s with visited_names := insertStr s.visited_names dep }
      match System.ofPackages s'.packages_in_solution with
      | none => none
      | some sol_system =>
        match go ss with
        | none => none
        | some (fins, notfins) =>
          if !(sol_system.provided_by dep).isEmpty then some (s' :: fins, notfins)
          else some (fins, s' :: notfins)
  match go not_finished0 with
  | none => none
  | some (fins, notfins) => some (finished0 ++ fins, notfins)

section Solver

variable (installed_system upstream_system : System) (only_unfulfilled_deps : Bool)
  (deps_to_deep_check : List String)

mutual

/-- `Package.solutions_for_dep_problem` (lines 296-405), fuelled.
`none` models both fuel exhaustion and the `InvalidInput` exception
raised when a `System` is built from a package list with duplicate
names. Returns the solution list together with the updated
`found_problems`. -/
def solutions_for_dep_problem : Nat → Package → DepAlgoSolution → List Problem →
    Option (List DepAlgoSolution × List Problem)
  | 0, _, _, _ => none
  | Nat.succ fuel, self, solution, found_problems =>
    if memPkg self solution.packages_in_solution then
      some ([solution], found_problems)
    else if memPkg self solution.visited_packages &&
        !(self.type_of == PossibleTypes.REPO_PACKAGE) then
      -- dep cycle (lines 316-322)
      if solution.is_valid then
        let index_of_self := indexOfPkg solution.visited_packages self
        let new_dep_cycle :=
          Problem.cycle ((solution.visited_packages.drop index_of_self) ++ [self])
        some ([], addProblem found_problems new_dep_cycle)
      else some ([], found_problems)
    else if memPkg self solution.visited_packages then
      some ([solution], found_problems)
    else
      -- conflict (lines 326-339)
      match System.ofPackages solution.visited_packages with
      | none => none
      | some visited_sys =>
        let conflict_system := visited_sys.conflicting_with self
        let is_conflict := !conflict_system.isEmpty
        let found_problems1 :=
          if is_conflict && solution.is_valid then
            let min_index := minIndexOf solution.visited_packages conflict_system
            let way_to_conflict := (solution.visited_packages.drop min_index) ++ [self]
            addProblem found_problems
              (Problem.conflict (mkConflictSet conflict_system self) way_to_conflict)
          else found_problems
        -- copy solution, push self, maybe flag invalid (lines 342-346)
        let solution1 :=
          { solution with visited_packages := solution.visited_packages ++ [self],
                          is_valid := solution.is_valid && !is_conflict }
        match depLoop fuel self self.relevant_deps [solution1] found_problems1 with
        | none => none
        | some (current_solutions, found_problems2) =>
          -- problem sweep (lines 395-398)
          let found_problems3 :=
            if current_solutions.any (fun s => s.is_valid) then [] else found_problems2
          -- post-order selection (lines 400-402)
          some (current_solutions.map (fun s =>
              { s with packages_in_solution := s.packages_in_solution ++ [self] }),
            found_problems3)

/-- The `for dep in self.relevant_deps()` loop (lines 349-393). -/
def depLoop : Nat → Package → List String → List DepAlgoSolution → List Problem →
    Option (List DepAlgoSolution × List Problem)
  | 0, _, _, _, _ => none
  | Nat.succ _, _, [], current_solutions, found_problems =>
    some (current_solutions, found_problems)
  | Nat.succ fuel, self, dep :: deps, current_solutions, found_problems =>
    match depStep fuel self dep current_solutions found_problems with
    | none => none
    | some (current_solutions1, found_problems1) =>
      depLoop fuel self deps current_solutions1 found_problems1

/-- The body of the dep loop for a single `dep` (lines 350-393). -/
def depStep : Nat → Package → String → List DepAlgoSolution → List Problem →
    Option (List DepAlgoSolution × List Problem)
  | 0, _, _, _, _ => none
  | Nat.succ fuel, self, dep, current_solutions, found_problems =>
    if only_unfulfilled_deps && !(installed_system.provided_by dep).isEmpty then
      some (current_solutions, found_problems)
    else
      let dep_providers := upstream_system.provided_by dep
      let dep_providers_names := dep_providers.map (fun p => p.name)
      let dep_stripped_name := strip_versioning_from_name dep
      -- dep not fulfillable (lines 357-365)
      let found_problems1 :=
        if dep_providers.isEmpty then addProblem found_problems (Problem.notProvided dep self)
        else found_problems
      let current_solutions1 :=
        if dep_providers.isEmpty then markNotFulfilled dep current_solutions
        else current_solutions
      -- name narrowing (lines 367-369)
      let dep_providers1 :=
        if dep_providers_names.contains dep_stripped_name &&
            !(deps_to_deep_check.contains dep) then
          dep_providers.filter (fun p => p.name == dep_stripped_name)
        else dep_providers
      match splitFinished dep current_solutions1 with
      | none => none
      | some (finished_solutions, not_finished_solutions) =>
        orLoop fuel not_finished_solutions dep_providers1 finished_solutions found_problems1

/-- The `for solution in not_finished_solutions` loop (lines 388-393). -/
def orLoop : Nat → List DepAlgoSolution → List Package → List DepAlgoSolution →
    List Problem → Option (List DepAlgoSolution × List Problem)
  | 0, _, _, _, _ => none
  | Nat.succ _, [], _, acc, found_problems => some (acc, found_problems)
  | Nat.succ fuel, solution :: rest, dep_providers, acc, found_problems =>
    match provLoop fuel solution dep_providers acc found_problems with
    | none => none
    | some (acc1, found_problems1) =>
      orLoop fuel rest dep_providers acc1 found_problems1

/-- The `for dep_provider in dep_providers` loop (lines 389-393). -/
def provLoop : Nat → DepAlgoSolution → List Package → List DepAlgoSolution →
    List Problem → Option (List DepAlgoSolution × List Problem)
  | 0, _, _, _, _ => none
  | Nat.succ _, _, [], acc, found_problems => some (acc, found_problems)
  | Nat.succ fuel, solution, dep_provider :: rest, acc, found_problems =>
    match solutions_for_dep_problem fuel dep_provider solution found_problems with
    | none => none
    | some (new_solutions, found_problems1) =>
      provLoop fuel solution rest (acc ++ new_solutions) found_problems1

end

/-- The `for solution in current_solutions` loop of `dep_solving`
(lines 429-432): expand `package` against each current solution,
concatenating the results. The per-call fuel `efuel` plays the role of
the unbounded Python recursion. -/
def solLoop (efuel : Nat) (package : Package) :
    List DepAlgoSolution → List DepAlgoSolution → List Problem →
    Option (List DepAlgoSolution × List Problem)
  | [], acc, found_problems => some (acc, found_problems)
  | solution :: rest, acc, found_problems =>
    match solutions_for_dep_problem installed_system upstream_system only_unfulfilled_deps
        deps_to_deep_check efuel package solution found_problems with
    | none => none
    | some (new_solutions, found_problems1) =>
      solLoop efuel package rest (acc ++ new_solutions) found_problems1

/-- The `for package in packages` loop of `dep_solving`
(lines 427-433). -/
def pkgLoop (efuel : Nat) : List Package → List DepAlgoSolution → List Problem →
    Option (List DepAlgoSolution × List Problem)
  | [], current_solutions, found_problems => some (current_solutions, found_problems)
  | package :: rest, current_solutions, found_problems =>
    match solLoop installed_system upstream_system only_unfulfilled_deps deps_to_deep_check
        efuel package current_solutions [] found_problems with
    | none => none
    | some (current_solutions1, found_problems1) =>
      pkgLoop efuel rest current_solutions1 found_problems1

end Solver

/-- Outcome of the `while True` loop of `dep_solving`: `abort` models the
propagation of an `InvalidInput` exception (or exhausted per-call fuel)
out of `solutions_for_dep_problem`; `done` carries the surviving valid
solutions and the final `found_problems`. -/
inductive LoopOut where
  | abort
  | done (current_solutions : List DepAlgoSolution) (found_problems : List Problem)
deriving DecidableEq, Repr

/-- The names of the relevant packages of all problems, merged into
`deps_to_deep_check` (lines 442-445). -/
def widenDeep (deep : List String) (probs : List Problem) : List String :=
  probs.foldl (fun d p => p.get_relevant_packages.foldl
    (fun d q => insertStr d q.name) d) deep

/-- The `while True` loop of `Package.dep_solving` (lines 425-452),
fuelled by the number of widening iterations; `none` models loop-fuel
exhaustion (never reachable with enough fuel, see the termination
theorem), while `some LoopOut.abort` models an exception escaping an
expansion call. Every iteration starts from one empty solution and, on
widening, an empty problem set (lines 421-422, 451-452). -/
def depSolvingLoop (installed_system upstream_system : System)
    (only_unfulfilled_deps : Bool) (efuel : Nat) (packages : List Package) :
    Nat → List String → Option LoopOut
  | 0, _ => none
  | Nat.succ lfuel, deep =>
    match pkgLoop installed_system upstream_system only_unfulfilled_deps deep efuel
        packages [⟨[], [], [], true⟩] [] with
    | none => some LoopOut.abort
    | some (solutions, found_problems) =>
      let current_solutions := solutions.filter (fun s => s.is_valid)
      if !current_solutions.isEmpty then some (LoopOut.done current_solutions found_problems)
      else
        let deep1 := widenDeep deep found_problems
        if deep1.length == deep.length then some (LoopOut.done [] found_problems)
        else depSolvingLoop installed_system upstream_system only_unfulfilled_deps efuel
          packages lfuel deep1

/-- `Package.dep_solving` (lines 407-459): the plans
(`packages_in_solution` of each surviving solution). `none` covers fuel
exhaustion and a propagated `InvalidInput` exception. -/
def Package.dep_solving (efuel lfuel : Nat) (packages : List Package)
    (installed_system upstream_system : System) (only_unfulfilled_deps : Bool) :
    Option (List (List Package)) :=
  match depSolvingLoop installed_system upstream_system only_unfulfilled_deps efuel
      packages lfuel [] with
  | none => none
  | some LoopOut.abort => none
  | some (LoopOut.done current_solutions _) =>
    some (current_solutions.map (fun s => s.packages_in_solution))

/-- The problems printed at lines 455-457: surfaced only when problems
were found and no solution survived. -/
def surfacedProblems : LoopOut → List Problem
  | LoopOut.abort => []
  | LoopOut.done current_solutions found_problems =>
    if !found_problems.isEmpty && current_solutions.isEmpty then found_problems else []

/-- Result of an operation that can exhaust its fuel (`fuelOut`, an
artefact of the embedding) or raise `InvalidInput` (`err`). -/
inductive Res (α : Type) where
  | fuelOut
  | err
  | ok (a : α)
deriving DecidableEq, Repr

/-- Python `del dict[name]` (keys are unique in a Python dict). -/
def removeNameKey (d : List (String × Package)) (n : String) : List (String × Package) :=
  d.filter (fun kv => kv.1 != n)

/-- Lines 964-968 of `hypothetical_append_packages_to_system`: displace
the same-named existing packages, collecting them as deleted. -/
def displaceSameNames (d : List (String × Package)) :
    List Package → (List Package × List (String × Package))
  | [] => ([], d)
  | p :: ps =>
    match lookupAssoc d p.name with
    | none => displaceSameNames d ps
    | some old =>
      let (deleted, d1) := displaceSameNames (removeNameKey d p.name) ps
      (old :: deleted, d1)

/-- One iteration body plus guard of the cascade `while` loop
(lines 977-995): remove the casualties, rebuild, gather the packages
that required a deleted one and mark those with now-unfulfilled deps as
the next casualties. -/
def cascadeLoop : Nat → System → List Package → List Package → Res System
  | 0, _, _, _ => Res.fuelOut
  | Nat.succ fuel, new_system, to_delete_packages, deleted_packages =>
    if to_delete_packages.isEmpty && deleted_packages.isEmpty then Res.ok new_system
    else
      let deleted1 := deleted_packages ++ to_delete_packages
      let dict1 := to_delete_packages.foldl (fun d p => removeNameKey d p.name)
        new_system.all_packages_dict
      match System.ofPackages (dict1.map (fun kv => kv.2)) with
      | none => Res.err
      | some new_system1 =>
        let was_required_by_packages := deleted1.foldl
          (fun acc dp =>
            match dp.required_by with
            | none => acc
            | some rb => acc ++ rb.filterMap (fun r => new_system1.lookupName r))
          []
        let to_delete1 := was_required_by_packages.foldl
          (fun acc w =>
            if !(new_system1.are_all_deps_fulfilled w) && !(memPkg w acc) then acc ++ [w]
            else acc)
          []
        cascadeLoop fuel new_system1 to_delete1 []

/-- The final re-check `while True` loop (lines 997-1009): repeatedly
remove incoming packages whose deps are no longer fulfilled. -/
def finalRecheckLoop : Nat → System → List Package → Res System
  | 0, _, _ => Res.fuelOut
  | Nat.succ fuel, new_system, packages =>
    let to_delete_packages := packages.foldl
      (fun acc p =>
        if (new_system.lookupName p.name).isSome &&
            !(new_system.are_all_deps_fulfilled p) then acc ++ [p]
        else acc)
      []
    if to_delete_packages.isEmpty then Res.ok new_system
    else
      let dict1 := to_delete_packages.foldl (fun d p => removeNameKey d p.name)
        new_system.all_packages_dict
      match System.ofPackages (dict1.map (fun kv => kv.2)) with
      | none => Res.err
      | some new_system1 => finalRecheckLoop fuel new_system1 packages

/-- `System.hypothetical_append_packages_to_system` (lines 953-1009).
The `deepcopy(self)` of line 962 is value semantics here; `Res.err`
models the `InvalidInput` exception raised when the incoming packages
re-declare a name (line 975 via `append_packages`). -/
def System.hypothetical_append_packages_to_system (cascadeFuel recheckFuel : Nat)
    (s : System) (packages : List Package) : Res System :=
  let (deleted_packages, dict0) := displaceSameNames s.all_packages_dict packages
  match System.ofPackages (dict0.map (fun kv => kv.2)) with
  | none => Res.err
  | some new_system0 =>
    let to_delete_packages := dedupPkg (packages.foldl
      (fun acc p => acc ++ new_system0.conflicting_with p) [])
    match new_system0.append_packages packages with
    | none => Res.err
    | some new_system1 =>
      match cascadeLoop cascadeFuel new_system1 to_delete_packages deleted_packages with
      | Res.fuelOut => Res.fuelOut
      | Res.err => Res.err
      | Res.ok new_system2 => finalRecheckLoop recheckFuel new_system2 packages

/-- Intersection of a family of package sets
(`set.intersection(*sets)`; the source only calls it on a non-empty
family). -/
def intersectAllPkg : List (List Package) → List Package
  | [] => []
  | x :: xs => x.filter (fun p => xs.all (fun y => memPkg p y))

/-- `System.differences_between_systems` (lines 1011-1073), with Python
sets rendered as first-occurrence-deduplicated lists. -/
def System.differences_between_systems (s : System) (other_systems : List System) :
    (List Package × List Package) × List (List Package × List Package) :=
  let own_packages := dedupPkg s.packagesList
  let differences_tuples := other_systems.map (fun other =>
    let other_packages := dedupPkg other.packagesList
    (other_packages.filter (fun p => !memPkg p own_packages),
     own_packages.filter (fun p => !memPkg p other_packages)))
  let first_return_tuple :=
    (intersectAllPkg (differences_tuples.map (fun t => t.1)),
     intersectAllPkg (differences_tuples.map (fun t => t.2)))
  let return_list := differences_tuples.map (fun t =>
    (t.1.filter (fun p => !memPkg p first_return_tuple.1),
     t.2.filter (fun p => !memPkg p first_return_tuple.2)))
  (first_return_tuple, return_list)

/-- Outcome of `System.validate_and_choose_solution`: a solution
returned without user interaction (`pick`), or the deduplicated
candidate solutions presented to the user for an interactive choice
(`prompt`). -/
inductive VOut where
  | pick (solution : List Package)
  | prompt (solutions : List (List Package))
deriving DecidableEq, Repr

/-- `[self.hypothetical_append_packages_to_system(solution) for solution
in solutions]` (line 1091), propagating exceptions and fuel. -/
def hypAppendAll (cascadeFuel recheckFuel : Nat) (s : System) :
    List (List Package) → Res (List System)
  | [] => Res.ok []
  | solution :: rest =>
    match s.hypothetical_append_packages_to_system cascadeFuel recheckFuel solution with
    | Res.fuelOut => Res.fuelOut
    | Res.err => Res.err
    | Res.ok ns =>
      match hypAppendAll cascadeFuel recheckFuel s rest with
      | Res.fuelOut => Res.fuelOut
      | Res.err => Res.err
      | Res.ok rest1 => Res.ok (ns :: rest1)

/-- The duplicate-resulting-system elimination of
`validate_and_choose_solution` (lines 1120-1131): keep a valid solution
only if the union of its unique-difference pair is a set not seen
before. -/
def dedupByDiff : List (List Package × System) → List (List Package × List Package) →
    List (List Package) → List (List Package × System)
  | [], _, _ => []
  | _ :: _, [], _ => []
  | v :: vs, d :: ds, seen =>
    let cont_set := dedupPkg (d.1 ++ d.2)
    if seen.any (fun c => setPkgEq c cont_set) then dedupByDiff vs ds seen
    else v :: dedupByDiff vs ds (cont_set :: seen)

/-- `System.validate_and_choose_solution` (lines 1075-1156). `Res.err`
models the `InvalidInput` exceptions (the explicit
"No valid solutions found" one, and any raised while hypothetically
appending a plan); the interactive tail of the source is modelled by
returning the solutions that would be presented (`VOut.prompt`). -/
def System.validate_and_choose_solution (cascadeFuel recheckFuel : Nat) (s : System)
    (solutions : List (List Package)) (needed_packages : List Package) : Res VOut :=
  match hypAppendAll cascadeFuel recheckFuel s solutions with
  | Res.fuelOut => Res.fuelOut
  | Res.err => Res.err
  | Res.ok new_systems =>
    let valids := (solutions.zip new_systems).filter
      (fun sn => needed_packages.all (fun p => (sn.2.lookupName p.name).isSome))
    match valids with
    | [] => Res.err
    | [sn] => Res.ok (VOut.pick sn.1)
    | _ =>
      let valid_systems := valids.map (fun sn => sn.2)
      let systems_differences := s.differences_between_systems valid_systems
      let single_differences_count := (systems_differences.2.map
        (fun t => t.1.length + t.2.length)).foldl Nat.add 0
      if single_differences_count == 0 then
        Res.ok (VOut.pick ((valids.map (fun sn => sn.1)).headD []))
      else
        let kept := dedupByDiff valids systems_differences.2 []
        Res.ok (VOut.prompt (kept.map (fun sn => sn.1)))

/-- One provide of `package` matches the parsed dependency atom
`(dep_name, dep_cmp, dep_version)` under the rule of `provided_by`'s
second step. -/
def provideMatch (dep_name dep_cmp dep_version : String) (package : Package)
    (provide : String) : Bool :=
  let (provide_name, provide_cmp, provide_version) := split_name_with_versioning provide
  provide_name == dep_name &&
    (dep_cmp == "" ||
     ((provide_cmp == "=" || provide_cmp == "==") &&
       version_comparison provide_version dep_cmp dep_version) ||
     (provide_cmp == "" && version_comparison package.version dep_cmp dep_version))

/-- A package `q` satisfies a dependency atom `dep`: by its own name and
version (first step of `provided_by`) or via one of its provides (second
step). This is the per-package matching relation realized by
`System.provided_by`. -/
def satisfiesDep (q : Package) (dep : String) : Bool :=
  let (dep_name, dep_cmp, dep_version) := split_name_with_versioning dep
  (q.name == dep_name &&
    (dep_cmp == "" || version_comparison q.version dep_cmp dep_version)) ||
  q.provides.any (provideMatch dep_name dep_cmp dep_version q)

/-- A package occurs in some entry of a provides / conflicts index. -/
def inXDict (d : List (String × List Package)) (q : Package) : Prop :=
  ∃ n l, (n, l) ∈ d ∧ q ∈ l

/-- A dep is skipped by the solver when `only_unfulfilled_deps` holds and
the installed system provides it (line 350). -/
def skipDep (installed_system : System) (only_unfulfilled_deps : Bool) (dep : String) : Bool :=
  only_unfulfilled_deps && !(installed_system.provided_by dep).isEmpty

/-- The name index maps each name to a package of that name (true of
every system built by `System.__init__` / `append_packages`). -/
def System.nameConsistent (s : System) : Prop :=
  ∀ kv ∈ s.all_packages_dict, kv.2.name = kv.1

/-- Solver invariant for one solution, with an exception set `X` of dep
atoms whose satisfaction is still pending in an enclosing call: in a
valid solution every visited dep name and every relevant dep of a
selected package is pending, skipped, or satisfied by some visited
package, and every selected package has been visited. -/
def GoodX (installed_system : System) (only_unfulfilled_deps : Bool) (X : List String)
    (s : DepAlgoSolution) : Prop :=
  s.is_valid = true →
    (∀ d, s.visited_names.contains d = true →
      X.contains d = true ∨ skipDep installed_system only_unfulfilled_deps d = true ∨
      ∃ q, memPkg q s.visited_packages = true ∧ satisfiesDep q d = true) ∧
    (∀ e ∈ s.packages_in_solution, ∀ a ∈ e.relevant_deps,
      X.contains a = true ∨ skipDep installed_system only_unfulfilled_deps a = true ∨
      ∃ q, memPkg q s.visited_packages = true ∧ satisfiesDep q a = true) ∧
    (∀ x, memPkg x s.packages_in_solution = true → memPkg x s.visited_packages = true)

/-- Structural relation between an input solution and a solution derived
from it by the solver: `packages_in_solution` and `visited_packages` are
only appended to, visited dep names are never lost, every newly visited
package ends up selected, and a solution never turns valid again. -/
def SolRel (s out : DepAlgoSolution) : Prop :=
  (∃ t, out.packages_in_solution = s.packages_in_solution ++ t) ∧
  (∃ t, out.visited_packages = s.visited_packages ++ t) ∧
  (∀ d, s.visited_names.contains d = true → out.visited_names.contains d = true) ∧
  (∀ x, memPkg x out.visited_packages = true →
    memPkg x s.visited_packages = true ∨ memPkg x out.packages_in_solution = true) ∧
  (out.is_valid = true → s.is_valid = true)

/-- The `provided_by` resolution rule in the words of the spec's claim
(C4), including its "duplicates suppressed" requirement rendered as: a
candidate package is included at most once. -/
def System.providedBySpecClaim (s : System) (dep : String) : List Package :=
  let (dep_name, dep_cmp, dep_version) := split_name_with_versioning dep
  let step1 : List Package :=
    match s.lookupName dep_name with
    | none => []
    | some p =>
      if dep_cmp == "" || version_comparison p.version dep_cmp dep_version then [p] else []
  ((lookupAssoc s.provides_dict dep_name).getD []).foldl
    (fun acc q =>
      if memPkg q acc then acc
      else if (q.provides.any (fun provide =>
          let (provide_name, provide_cmp, provide_version) := split_name_with_versioning provide
          provide_name == dep_name &&
            (dep_cmp == "" ||
             ((provide_cmp == "=" || provide_cmp == "==") &&
               version_comparison provide_version dep_cmp dep_version) ||
             (provide_cmp == "" && version_comparison q.version dep_cmp dep_version)))) then
        acc ++ [q]
      else acc)
    step1

/-- The `provided_by` resolution rule as the code actually implements it
(amended claim C4): the already-included check happens once per
candidate package, before its provides are scanned, and the package is
then appended once per matching provide. -/
def System.providedBySpecAmended (s : System) (dep : String) : List Package :=
  let (dep_name, dep_cmp, dep_version) := split_name_with_versioning dep
  let step1 : List Package :=
    match s.lookupName dep_name with
    | none => []
    | some p =>
      if dep_cmp == "" || version_comparison p.version dep_cmp dep_version then [p] else []
  ((lookupAssoc s.provides_dict dep_name).getD []).foldl
    (fun acc q =>
      if memPkg q acc then acc
      else
        acc ++ q.provides.filterMap (fun provide =>
          let (provide_name, provide_cmp, provide_version) := split_name_with_versioning provide
          if provide_name != dep_name then none
          else if dep_cmp == "" then some q
          else if (provide_cmp == "=" || provide_cmp == "==") &&
              version_comparison provide_version dep_cmp dep_version then some q
          else if provide_cmp == "" &&
              version_comparison q.version dep_cmp dep_version then some q
          else none))
    step1

/-- `relevant_deps` in the words of claim C7: the concatenation only for
source-built classifications, just `depends` otherwise. -/
def relevantDepsClaim (p : Package) : List String :=
  match p.type_of with
  | PossibleTypes.AUR_PACKAGE =>
    p.depends.getD [] ++ p.makedepends.getD [] ++ p.checkdepends.getD []
  | PossibleTypes.DEVEL_PACKAGE =>
    p.depends.getD [] ++ p.makedepends.getD [] ++ p.checkdepends.getD []
  | _ => p.depends.getD []

/-- Claim C1's topological-order property of one plan, as stated:
every relevant dep of the i-th plan member is satisfied by the installed
system (under `only_unfulfilled_deps`) or provided by an earlier plan
member. -/
def claimC1Bool (installed_system : System) (only_unfulfilled_deps : Bool)
    (plan : List Package) : Bool :=
  plan.enum.all (fun ip =>
    ip.2.relevant_deps.all (fun a =>
      skipDep installed_system only_unfulfilled_deps a ||
      (plan.take ip.1).any (fun q => satisfiesDep q a)))

/-! ### Concrete test fixtures -/

/-- C4 fixture: a package with two provides for the same name. -/
def fxQ : Package :=
  { name := "q", version := "1", provides := ["x", "x=1"],
    type_of := PossibleTypes.AUR_PACKAGE }

/-- The system built from `[fxQ]`. -/
def fxQSys : System := ⟨[("q", fxQ)], [("x", [fxQ, fxQ])], []⟩

/-- C7 fixture: a REPO-classified package carrying a make-dependency. -/
def fx7 : Package :=
  { name := "a", version := "1", depends := some ["d"],
    makedepends := some ["m"], type_of := PossibleTypes.REPO_PACKAGE }

/-- C5 fixture: the package already visited. -/
def fx5q : Package := { name := "q", version := "1", type_of := PossibleTypes.AUR_PACKAGE }

/-- C5 fixture: a package conflicting with `fx5q`. -/
def fx5p : Package :=
  { name := "p", version := "1", conflicts := ["q"],
    type_of := PossibleTypes.AUR_PACKAGE }

/-- C5 fixture: an already-invalid solution that has visited `fx5q`. -/
def fx5sol : DepAlgoSolution := ⟨[], [fx5q], [], false⟩

/-- C1 fixture: REPO package `a` depending on `b`. -/
def repoA : Package :=
  { name := "a", version := "1", depends := some ["b"],
    type_of := PossibleTypes.REPO_PACKAGE }

/-- C1 fixture: REPO package `b` depending on `a` (a REPO dep cycle, as
in the mesa / libglvnd pair the source comments mention). -/
def repoB : Package :=
  { name := "b", version := "1", depends := some ["a"],
    type_of := PossibleTypes.REPO_PACKAGE }

/-- The upstream system of the two REPO packages. -/
def upRepo : System := ⟨[("a", repoA), ("b", repoB)], [], []⟩

/-- C10 / C6 fixture: AUR package `a` depending on `b`. -/
def aurA : Package :=
  { name := "a", version := "1", depends := some ["b"],
    type_of := PossibleTypes.AUR_PACKAGE }

/-- C10 / C6 fixture: AUR package `b` depending on `a` (an AUR dep
cycle). -/
def aurB : Package :=
  { name := "b", version := "1", depends := some ["a"],
    type_of := PossibleTypes.AUR_PACKAGE }

/-- The upstream system of the two AUR packages. -/
def upAur : System := ⟨[("a", aurA), ("b", aurB)], [], []⟩

/-- C2 fixture: AUR package `a` depending on the virtual dep `x`. -/
def c2a : Package :=
  { name := "a", version := "1", depends := some ["x"],
    type_of := PossibleTypes.AUR_PACKAGE }

/-- C2 fixture: first provider of `x`. -/
def c2p1 : Package :=
  { name := "p1", version := "1", provides := ["x"],
    type_of := PossibleTypes.AUR_PACKAGE }

/-- C2 fixture: second provider of `x`. -/
def c2p2 : Package :=
  { name := "p2", version := "1", provides := ["x"],
    type_of := PossibleTypes.AUR_PACKAGE }

/-- C2 fixture: package conflicting with the second provider. -/
def c2b : Package :=
  { name := "b", version := "1", conflicts := ["p2"],
    type_of := PossibleTypes.AUR_PACKAGE }

/-- The upstream system of the two providers. -/
def c2up : System := ⟨[("p1", c2p1), ("p2", c2p2)], [("x", [c2p1, c2p2])], []⟩

/-- The result of the solver loop on the C2 fixture: requested
`[c2a, c2b]`, empty installed system. -/
def c2out : Option LoopOut := depSolvingLoop emptySystem c2up true 20 [c2a, c2b] 3 []

/-- C8 witness fixture: some package. -/
def fx8p : Package := { name := "x", version := "1", type_of := PossibleTypes.REPO_PACKAGE }

/-- C8 witness fixture: a system containing `fx8p`. -/
def fx8s1 : System := ⟨[("x", fx8p)], [], []⟩

/-- C8 witness fixture: same membership dict, different (stale)
provides index. -/
def fx8s2 : System := ⟨[("x", fx8p)], [("junk", [fx8p])], []⟩

/-- C9 fixture: a package named `d`, version 1. -/
def fx9d1 : Package := { name := "d", version := "1", type_of := PossibleTypes.AUR_PACKAGE }

/-- C9 fixture: a package named `d`, version 2. -/
def fx9d2 : Package := { name := "d", version := "2", type_of := PossibleTypes.AUR_PACKAGE }

/-- C9 fixture: a harmless package named `g`. -/
def fx9g : Package := { name := "g", version := "1", type_of := PossibleTypes.AUR_PACKAGE }

/-- C5 fixture: the system built from `fx5sol.visited_packages`. -/
def fx5qsys : System := ⟨[("q", fx5q)], [], []⟩

/-- C9 fixture: the system resulting from hypothetically appending
`[fx9g]` to the empty system. -/
def fx9gsys : System := ⟨[("g", fx9g)], [], []⟩

/-- C5 fixture: a still-valid solution that has visited `fx5q`. -/
def fx5solValid : DepAlgoSolution := ⟨[], [fx5q], [], true⟩

/-- Shape of every recorded dependency cycle: at least two entries, the
first equal (under `Package.__eq__`) to the last, and the closing
(revisited) package not REPO-classified. -/
def CycShape (l : List Package) : Prop :=
  2 ≤ l.length ∧
  ∃ a b, l.head? = some a ∧ l.getLast? = some b ∧ pkgEq a b = true ∧
    b.type_of ≠ PossibleTypes.REPO_PACKAGE

/-! ## Theorems -/

/-- Generic fold shape used by `provided_by`: appending the optional
result of `g` for each element equals appending `filterMap g`. -/
theorem foldl_toList_eq_filterMap {α β : Type} (g : α → Option β) :
    ∀ (l : List α) (init : List β),
      l.foldl (fun acc a => acc ++ (g a).toList) init = init ++ l.filterMap g := by
  intro l
  induction l with
  | nil => intro init; simp
  | cons a t ih =>
    intro init
    simp only [List.foldl_cons, List.filterMap_cons]
    cases g a with
    | none => simp [ih]
    | some b => simp [ih]

/-- Claim C7 (counterexample): `relevant_deps` does not return just
`depends` for a REPO-classified package that carries make-dependencies;
the classification is never consulted. -/
theorem claim_C7_counterexample :
    fx7.type_of = PossibleTypes.REPO_PACKAGE ∧
    Package.relevant_deps fx7 = ["d", "m"] ∧
    Package.relevant_deps fx7 ≠ relevantDepsClaim fx7 := by decide

/-- Claim C7 (amended): `relevant_deps` returns the concatenation of
`depends`, `make_depends` and `check_depends` (absent lists treated as
empty) for every classification, preserving order and duplicates; it
returns just `depends` exactly for packages whose `make_depends` and
`check_depends` are absent — which is how REPO / FOREIGN packages are
constructed by the loaders. -/
theorem claim_C7_amended (p : Package) (hm : p.makedepends = none)
    (hc : p.checkdepends = none) : p.relevant_deps = p.depends.getD [] := by
  simp [Package.relevant_deps, hm, hc]

/-- Witness for the amended claim C7 at a concrete package. -/
theorem claim_C7_witness :
    (fx5q.makedepends = none ∧ fx5q.checkdepends = none) ∧
    Package.relevant_deps fx5q = fx5q.depends.getD [] :=
  ⟨by decide, claim_C7_amended fx5q (by rfl) (by rfl)⟩

/-- Claim C4 (counterexample): a package whose `provides` list matches
the atom twice is returned twice by `provided_by` — the result is not
duplicate-free, and differs from the claim's duplicate-suppressed
rule. -/
theorem claim_C4_counterexample :
    System.ofPackages [fxQ] = some fxQSys ∧
    fxQSys.provided_by "x" = [fxQ, fxQ] ∧
    2 ≤ (fxQSys.provided_by "x").count fxQ ∧
    fxQSys.provided_by "x" ≠ fxQSys.providedBySpecClaim "x" := by decide

/-- Claim C4 (amended): `provided_by` returns exactly the two-step rule
with the dedup check performed once per candidate package before its
provides are scanned; a package with several matching provides occurs
once per matching provide. -/
theorem claim_C4_amended (s : System) (dep : String) :
    s.provided_by dep = s.providedBySpecAmended dep := by
  unfold System.provided_by System.providedBySpecAmended
  obtain ⟨dep_name, dep_cmp, dep_version⟩ := split_name_with_versioning dep
  dsimp only
  have hstep1 :
      (match s.lookupName dep_name with
        | none => ([] : List Package)
        | some package =>
          if dep_cmp == "" then [package]
          else if version_comparison package.version dep_cmp dep_version then [package]
          else []) =
      (match s.lookupName dep_name with
        | none => ([] : List Package)
        | some p =>
          if dep_cmp == "" || version_comparison p.version dep_cmp dep_version then [p]
          else []) := by
    cases s.lookupName dep_name with
    | none => rfl
    | some p =>
      by_cases h1 : dep_cmp == ""
      · simp [h1]
      · by_cases h2 : version_comparison p.version dep_cmp dep_version <;> simp [h1, h2]
  rw [hstep1]
  cases lookupAssoc s.provides_dict dep_name with
  | none => simp
  | some possible_packages =>
    simp only [Option.getD_some]
    apply List.foldl_ext
    intro acc q _
    by_cases hmem : memPkg q acc
    · simp [hmem]
    · simp only [hmem, if_false, Bool.false_eq_true]
      congr 1
      have := foldl_toList_eq_filterMap
        (fun provide =>
          let (provide_name, provide_cmp, provide_version) := split_name_with_versioning provide
          if provide_name != dep_name then none
          else if dep_cmp == "" then some q
          else if (provide_cmp == "=" || provide_cmp == "==") &&
              version_comparison provide_version dep_cmp dep_version then some q
          else if provide_cmp == "" &&
              version_comparison q.version dep_cmp dep_version then some q
          else none) q.provides []
      rw [List.nil_append] at this
      rw [← this]
      apply List.foldl_ext
      intro acc2 provide _
      obtain ⟨provide_name, provide_cmp, provide_version⟩ := split_name_with_versioning provide
      by_cases h1 : provide_name != dep_name
      · simp [h1]
      · by_cases h2 : dep_cmp == ""
        · simp [h1, h2]
        · by_cases h3 : (provide_cmp == "=" || provide_cmp == "==") &&
              version_comparison provide_version dep_cmp dep_version
          · simp [h1, h2, h3]
          · by_cases h4 : provide_cmp == "" &&
                version_comparison q.version dep_cmp dep_version <;>
              simp [h1, h2, h3, h4]

/-- Claim C8: `hypothetical_append_packages_to_system` is pure in its
inputs. Mutation-freedom is intrinsic to the value semantics of the
embedding (the source achieves it by `deepcopy`); the observable content
proved here is that the result is determined by the membership dict of
`s` alone (the stale `provides` / `conflicts` indexes of `s` are
discarded by the rebuild at line 969) together with `packages`. -/
theorem claim_C8 (cascadeFuel recheckFuel : Nat) (packages : List Package)
    (s1 s2 : System) (h : s1.all_packages_dict = s2.all_packages_dict) :
    s1.hypothetical_append_packages_to_system cascadeFuel recheckFuel packages =
      s2.hypothetical_append_packages_to_system cascadeFuel recheckFuel packages := by
  unfold System.hypothetical_append_packages_to_system
  rw [h]

/-- Witness for claim C8: two systems sharing the membership dict but
differing in their provides index produce the same hypothetical
result. -/
theorem claim_C8_witness :
    fx8s1.all_packages_dict = fx8s2.all_packages_dict ∧
    fx8s1.hypothetical_append_packages_to_system 3 3 [fx9g] =
      fx8s2.hypothetical_append_packages_to_system 3 3 [fx9g] :=
  ⟨by decide, claim_C8 3 3 [fx9g] fx8s1 fx8s2 (by decide)⟩

/-- Claim C9 (counterexample): when one submitted plan re-declares a
package name, `validate_and_choose_solution` fails with an error
(`InvalidInput` from `append_packages`, line 975) even though another
plan survives the needed-packages filter; so failure is not equivalent
to "no plan's hypothetical resulting system contains every needed
name". -/
theorem claim_C9_counterexample :
    emptySystem.validate_and_choose_solution 10 10 [[fx9d1, fx9d2], [fx9g]] [fx9g] =
      Res.err ∧
    emptySystem.hypothetical_append_packages_to_system 10 10 [fx9g] = Res.ok fx9gsys ∧
    (fx9gsys.lookupName "g").isSome = true := by decide

/-- Claim C9 (amended): provided the hypothetical append succeeds on
every plan (no plan re-declares a package name), the call fails with an
error exactly when no plan's hypothetical resulting system contains
every needed package name, and when exactly one plan survives that
filter it is returned directly without user interaction. -/
theorem claim_C9_amended (cascadeFuel recheckFuel : Nat) (s : System)
    (solutions : List (List Package)) (needed_packages : List Package)
    (new_systems : List System)
    (h : hypAppendAll cascadeFuel recheckFuel s solutions = Res.ok new_systems) :
    (s.validate_and_choose_solution cascadeFuel recheckFuel solutions needed_packages =
        Res.err ↔
      (solutions.zip new_systems).filter
        (fun sn => needed_packages.all (fun p => (sn.2.lookupName p.name).isSome)) = []) ∧
    (∀ sol ns,
      (solutions.zip new_systems).filter
        (fun sn => needed_packages.all (fun p => (sn.2.lookupName p.name).isSome)) = [(sol, ns)] →
      s.validate_and_choose_solution cascadeFuel recheckFuel solutions needed_packages =
        Res.ok (VOut.pick sol)) := by
  unfold System.validate_and_choose_solution
  rw [h]
  split
  next heq => exact absurd heq (by simp)
  next heq => exact absurd heq (by simp)
  next ns heq =>
    injection heq with hns
    subst hns
    dsimp only
    split
    next heq2 =>
      rw [heq2]
      simp
    next sn heq2 =>
      rw [heq2]
      constructor
      · simp
      · intro sol ns2 hfilter
        injection hfilter with h1 _
        rw [h1]
    next hne1 hne2 =>
      constructor
      · constructor
        · intro hcontra
          split at hcontra <;> simp_all
        · intro hcontra
          exact absurd hcontra hne1
      · intro sol ns2 hfilter
        exact absurd hfilter (hne2 (sol, ns2))

/-- Witness for the amended claim C9 at a concrete single-plan input. -/
theorem claim_C9_witness :
    hypAppendAll 10 10 emptySystem [[fx9g]] = Res.ok [fx9gsys] ∧
    emptySystem.validate_and_choose_solution 10 10 [[fx9g]] [fx9g] =
      Res.ok (VOut.pick [fx9g]) :=
  ⟨by decide,
    (claim_C9_amended 10 10 emptySystem [[fx9g]] [fx9g] [fx9gsys] (by decide)).2
      [fx9g] fx9gsys (by decide)⟩

/-- Claim C5 (counterexample): expanding `fx5p` against an
already-invalid solution whose visited packages conflict with it records
no `Conflict` problem (the guard at line 330 requires `is_valid`),
although the conflict set is non-empty; the claim's unconditional
"a Conflict problem is recorded" fails. -/
theorem claim_C5_counterexample :
    System.ofPackages fx5sol.visited_packages = some fx5qsys ∧
    (fx5qsys.conflicting_with fx5p).isEmpty = false ∧
    fx5sol.is_valid = false ∧
    solutions_for_dep_problem emptySystem emptySystem true [] 5 fx5p fx5sol [] =
      some ([⟨[fx5p], [fx5q, fx5p], [], false⟩], []) := by decide

/-- Claim C1 (counterexample): on the REPO dependency cycle
`repoA ↔ repoB` the returned plan is `[repoB, repoA]`, and `repoB`'s dep
`"a"` is neither satisfied by the (empty) installed system nor provided
by an earlier plan member — the claimed topological order fails on
cycles through REPO packages. -/
theorem claim_C1_counterexample :
    System.ofPackages [repoA, repoB] = some upRepo ∧
    Package.dep_solving 20 2 [repoA] emptySystem upRepo true = some [[repoB, repoA]] ∧
    claimC1Bool emptySystem true [repoB, repoA] = false := by decide

/-- Claim C2 (counterexample): on the two-package request `[c2a, c2b]`
the solver loop finishes with a surviving valid solution (a non-empty
plan list) while the final `found_problems` still contains the
`Conflict` recorded on the abandoned second provider branch: the last
expansion call for a branch clears problems only when that call itself
ends with a valid branch. -/
theorem claim_C2_counterexample :
    System.ofPackages [c2p1, c2p2] = some c2up ∧
    (Package.dep_solving 20 3 [c2a, c2b] emptySystem c2up true).getD [] ≠ [] ∧
    (match c2out with
     | some (LoopOut.done sols probs) => !sols.isEmpty && !probs.isEmpty
     | _ => false) = true := by decide

/-- Claim C2 (amended): if `dep_solving` returns at least one plan, no
problems are surfaced to the caller (the report at lines 455-457 is
printed only when problems exist and no solution survived); the internal
`found_problems` set may nonetheless be non-empty. -/
theorem claim_C2_amended (installed_system upstream_system : System)
    (only_unfulfilled_deps : Bool) (efuel lfuel : Nat) (packages : List Package)
    (plans : List (List Package)) (lout : LoopOut)
    (h : Package.dep_solving efuel lfuel packages installed_system upstream_system
      only_unfulfilled_deps = some plans)
    (hne : plans ≠ [])
    (hl : depSolvingLoop installed_system upstream_system only_unfulfilled_deps efuel
      packages lfuel [] = some lout) :
    surfacedProblems lout = [] := by
  unfold Package.dep_solving at h
  rw [hl] at h
  cases lout with
  | abort => exact absurd h (by simp)
  | done current_solutions found_problems =>
    simp only [surfacedProblems]
    have hcs : current_solutions ≠ [] := by
      intro hnil
      rw [hnil] at h
      simp at h
      exact hne h
    have : current_solutions.isEmpty = false := by
      cases current_solutions with
      | nil => exact absurd rfl hcs
      | cons a t => rfl
    simp [this]

/-- Witness for the amended claim C2 at the concrete C2 fixture. -/
theorem claim_C2_witness :
    (Package.dep_solving 20 3 [c2a, c2b] emptySystem c2up true =
      some [[c2p1, c2a, c2b]]) ∧
    (∀ lout, c2out = some lout → surfacedProblems lout = []) :=
  ⟨by decide, fun lout hl =>
    claim_C2_amended emptySystem c2up true 20 3 [c2a, c2b] [[c2p1, c2a, c2b]] lout
      (by decide) (by decide) hl⟩

/-- `addProblem` only appends. -/
theorem addProblem_append (probs : List Problem) (p : Problem) :
    ∃ t, addProblem probs p = probs ++ t := by
  unfold addProblem
  by_cases h : probs.any (probEq p)
  · exact ⟨[], by simp [h]⟩
  · exact ⟨[p], by simp [h]⟩

/-- Characterization of `splitFinished.go`: every output solution is an
input solution with `dep` recorded as visited, sorted by whether its own
selected packages already provide `dep`. -/
theorem splitFinished_go_spec (dep : String) :
    ∀ (l f nf : List DepAlgoSolution), splitFinished.go dep l = some (f, nf) →
      (∀ x ∈ f, ∃ s ∈ l, x = { s with visited_names := insertStr s.visited_names dep } ∧
        ∃ sys, System.ofPackages s.packages_in_solution = some sys ∧
          (sys.provided_by dep).isEmpty = false) ∧
      (∀ x ∈ nf, ∃ s ∈ l, x = { s with visited_names := insertStr s.visited_names dep }) := by
  intro l
  induction l with
  | nil =>
    intro f nf h
    simp only [splitFinished.go] at h
    injection h with h1
    injection h1 with hf hnf
    subst hf; subst hnf
    exact ⟨by simp, by simp⟩
  | cons s ss ih =>
    intro f nf h
    simp only [splitFinished.go] at h
    rcases hsys : System.ofPackages
        (DepAlgoSolution.packages_in_solution
          { s with visited_names := insertStr s.visited_names dep }) with _ | sys
    · rw [hsys] at h; exact absurd h (by simp)
    · rw [hsys] at h
      rcases hgo : splitFinished.go dep ss with _ | ⟨fins, notfins⟩
      · rw [hgo] at h; exact absurd h (by simp)
      · rw [hgo] at h
        obtain ⟨ihf, ihnf⟩ := ih fins notfins hgo
        by_cases hprov : (sys.provided_by dep).isEmpty = false
        · simp only [hprov, if_true] at h
          injection h with h1
          injection h1 with hf hnf
          subst hf; subst hnf
          constructor
          · intro x hx
            rcases List.mem_cons.mp hx with hx1 | hx2
            · exact ⟨s, List.mem_cons_self s ss, hx1, sys, hsys, hprov⟩
            · obtain ⟨s0, hs0, hrest⟩ := ihf x hx2
              exact ⟨s0, List.mem_cons_of_mem s hs0, hrest⟩
          · intro x hx
            obtain ⟨s0, hs0, hrest⟩ := ihnf x hx
            exact ⟨s0, List.mem_cons_of_mem s hs0, hrest⟩
        · have hprov2 : (sys.provided_by dep).isEmpty = true := by
            cases hp : (sys.provided_by dep).isEmpty
            · exact absurd hp hprov
            · rfl
          simp only [hprov2, Bool.not_true, if_false] at h
          simp only [Bool.false_eq_true] at h
          injection h with h1
          injection h1 with hf hnf
          subst hf; subst hnf
          constructor
          · intro x hx
            obtain ⟨s0, hs0, hrest⟩ := ihf x hx
            exact ⟨s0, List.mem_cons_of_mem s hs0, hrest⟩
          · intro x hx
            rcases List.mem_cons.mp hx with hx1 | hx2
            · exact ⟨s, List.mem_cons_self s ss, hx1⟩
            · obtain ⟨s0, hs0, hrest⟩ := ihnf x hx2
              exact ⟨s0, List.mem_cons_of_mem s hs0, hrest⟩

/-- Characterization of `splitFinished`: outputs in the first component
either already carried `dep` in `visited_names` or get it added while
their own selected packages provide `dep`; outputs in the second
component are inputs with `dep` added. -/
theorem splitFinished_spec (dep : String) (sols f nf : List DepAlgoSolution)
    (h : splitFinished dep sols = some (f, nf)) :
    (∀ x ∈ f, (x ∈ sols ∧ x.visited_names.contains dep = true) ∨
      (∃ s ∈ sols, x = { s with visited_names := insertStr s.visited_names dep } ∧
        ∃ sys, System.ofPackages s.packages_in_solution = some sys ∧
          (sys.provided_by dep).isEmpty = false)) ∧
    (∀ x ∈ nf, ∃ s ∈ sols, x = { s with visited_names := insertStr s.visited_names dep }) := by
  unfold splitFinished at h
  dsimp only at h
  rcases hgo : splitFinished.go dep (sols.filter (fun s => !s.visited_names.contains dep)) with
    _ | ⟨fins, notfins⟩
  · rw [hgo] at h; exact absurd h (by simp)
  · rw [hgo] at h
    injection h with h1
    injection h1 with hf hnf
    subst hf; subst hnf
    obtain ⟨ihf, ihnf⟩ := splitFinished_go_spec dep _ fins notfins hgo
    constructor
    · intro x hx
      rcases List.mem_append.mp hx with hx1 | hx2
      · left
        have := List.mem_filter.mp hx1
        exact ⟨this.1, by simpa using this.2⟩
      · right
        obtain ⟨s0, hs0, hrest⟩ := ihf x hx2
        exact ⟨s0, (List.mem_filter.mp hs0).1, hrest⟩
    · intro x hx
      obtain ⟨s0, hs0, hrest⟩ := ihnf x hx
      exact ⟨s0, (List.mem_filter.mp hs0).1, hrest⟩

/-- Solutions produced by `markNotFulfilled` from invalid inputs are
invalid. -/
theorem markNotFulfilled_invalid (dep : String) (sols : List DepAlgoSolution)
    (h : ∀ s ∈ sols, s.is_valid = false) :
    ∀ x ∈ markNotFulfilled dep sols, x.is_valid = false := by
  intro x hx
  unfold markNotFulfilled at hx
  obtain ⟨s, hs, hmap⟩ := List.mem_map.mp hx
  by_cases hc : s.visited_names.contains dep
  · rw [if_pos hc] at hmap
    rw [← hmap]
    exact h s hs
  · rw [if_neg hc] at hmap
    rw [← hmap]

/-- Invalid-branch preservation pack: expanding from invalid solutions
yields only invalid solutions and never clears (only appends to) the
problem set. One conjunct per function of the mutual recursion. -/
theorem invalidPack (I U : System) (O : Bool) (D : List String) : ∀ fuel : Nat,
    (∀ self sol probs r,
      solutions_for_dep_problem I U O D fuel self sol probs = some r →
      sol.is_valid = false →
      (∀ out ∈ r.1, out.is_valid = false) ∧ (∃ t, r.2 = probs ++ t)) ∧
    (∀ self deps cur probs r,
      depLoop I U O D fuel self deps cur probs = some r →
      (∀ s ∈ cur, s.is_valid = false) →
      (∀ out ∈ r.1, out.is_valid = false) ∧ (∃ t, r.2 = probs ++ t)) ∧
    (∀ self dep cur probs r,
      depStep I U O D fuel self dep cur probs = some r →
      (∀ s ∈ cur, s.is_valid = false) →
      (∀ out ∈ r.1, out.is_valid = false) ∧ (∃ t, r.2 = probs ++ t)) ∧
    (∀ notfin provs acc probs r,
      orLoop I U O D fuel notfin provs acc probs = some r →
      (∀ s ∈ notfin, s.is_valid = false) → (∀ s ∈ acc, s.is_valid = false) →
      (∀ out ∈ r.1, out.is_valid = false) ∧ (∃ t, r.2 = probs ++ t)) ∧
    (∀ sol provs acc probs r,
      provLoop I U O D fuel sol provs acc probs = some r →
      sol.is_valid = false → (∀ s ∈ acc, s.is_valid = false) →
      (∀ out ∈ r.1, out.is_valid = false) ∧ (∃ t, r.2 = probs ++ t)) := by
  intro fuel
  induction fuel with
  | zero =>
    refine ⟨?_, ?_, ?_, ?_, ?_⟩
    · intro self sol probs r h
      exact absurd h (by simp [solutions_for_dep_problem])
    · intro self deps cur probs r h
      exact absurd h (by simp [depLoop])
    · intro self dep cur probs r h
      exact absurd h (by simp [depStep])
    · intro notfin provs acc probs r h
      exact absurd h (by simp [orLoop])
    · intro sol provs acc probs r h
      exact absurd h (by simp [provLoop])
  | succ n ih =>
    obtain ⟨ihE, ihL, ihS, ihO, ihP⟩ := ih
    refine ⟨?_, ?_, ?_, ?_, ?_⟩
    · -- solutions_for_dep_problem
      intro self sol probs r h hinv
      simp only [solutions_for_dep_problem] at h
      split at h
      · injection h with h1
        subst h1
        refine ⟨?_, [], by simp⟩
        intro out hout
        rw [List.mem_singleton.mp hout]
        exact hinv
      · split at h
        · -- dep-cycle branch
          rw [hinv] at h
          rw [if_neg (by simp)] at h
          injection h with h1
          subst h1
          exact ⟨by simp, [], by simp⟩
        · split at h
          · -- REPO revisit
            injection h with h1
            subst h1
            refine ⟨?_, [], by simp⟩
            intro out hout
            rw [List.mem_singleton.mp hout]
            exact hinv
          · -- main path
            split at h
            · exact absurd h (by simp)
            · next visited_sys heq =>
              rw [hinv] at h
              simp only [Bool.and_false, Bool.false_eq_true, if_false] at h
              split at h
              · exact absurd h (by simp)
              · next cur2 probs2 heq2 =>
                have hsub := (ihL self self.relevant_deps
                  [{ sol with
                      visited_packages := sol.visited_packages ++ [self],
                      is_valid := false }] probs (cur2, probs2) ?_ ?_)
                · obtain ⟨hval, t, ht⟩ := hsub
                  have hany : cur2.any (fun s => s.is_valid) = false := by
                    rw [List.any_eq_false]
                    intro x hx
                    simp [hval x hx]
                  rw [hany] at h
                  simp only [Bool.false_eq_true, if_false] at h
                  injection h with h1
                  subst h1
                  refine ⟨?_, t, by simpa using ht⟩
                  intro out hout
                  obtain ⟨s0, hs0, hmap⟩ := List.mem_map.mp hout
                  rw [← hmap]
                  exact hval s0 hs0
                · simpa using heq2
                · intro s hs
                  rw [List.mem_singleton.mp hs]
    · -- depLoop
      intro self deps cur probs r h hinv
      cases deps with
      | nil =>
        simp only [depLoop] at h
        injection h with h1
        subst h1
        exact ⟨hinv, [], by simp⟩
      | cons d ds =>
        simp only [depLoop] at h
        split at h
        · exact absurd h (by simp)
        · next cur1 probs1 heq1 =>
          obtain ⟨hval1, t1, ht1⟩ := ihS self d cur probs (cur1, probs1) heq1 hinv
          obtain ⟨hval2, t2, ht2⟩ := ihL self ds cur1 probs1 r h hval1
          exact ⟨hval2, t1 ++ t2, by dsimp only at ht1; rw [ht2, ht1, List.append_assoc]⟩
    · -- depStep
      intro self dep cur probs r h hinv
      simp only [depStep] at h
      split at h
      · injection h with h1
        subst h1
        exact ⟨hinv, [], by simp⟩
      · split at h
        · exact absurd h (by simp)
        · next fins notfins heqsplit =>
          obtain ⟨hf, hnf⟩ := splitFinished_spec dep _ fins notfins heqsplit
          have hcur1 : ∀ s ∈ (if (U.provided_by dep).isEmpty = true then
              markNotFulfilled dep cur else cur), s.is_valid = false := by
            split
            · exact markNotFulfilled_invalid dep cur hinv
            · exact hinv
          have hfv : ∀ s ∈ fins, s.is_valid = false := by
            intro x hx
            rcases hf x hx with ⟨hx1, _⟩ | ⟨s0, hs0, hx2, _⟩
            · exact hcur1 x hx1
            · rw [hx2]
              exact hcur1 s0 hs0
          have hnfv : ∀ s ∈ notfins, s.is_valid = false := by
            intro x hx
            obtain ⟨s0, hs0, hx2⟩ := hnf x hx
            rw [hx2]
            exact hcur1 s0 hs0
          obtain ⟨hval, t, ht⟩ := ihO notfins _ fins _ r h hnfv hfv
          refine ⟨hval, ?_⟩
          obtain ⟨t0, ht0⟩ : ∃ t0, (if (U.provided_by dep).isEmpty = true then
              addProblem probs (Problem.notProvided dep self) else probs) = probs ++ t0 := by
            split
            · exact addProblem_append probs _
            · exact ⟨[], by simp⟩
          rw [ht0] at ht
          exact ⟨t0 ++ t, by rw [ht, List.append_assoc]⟩
    · -- orLoop
      intro notfin provs acc probs r h hnf hacc
      cases notfin with
      | nil =>
        simp only [orLoop] at h
        injection h with h1
        subst h1
        exact ⟨hacc, [], by simp⟩
      | cons s ss =>
        simp only [orLoop] at h
        split at h
        · exact absurd h (by simp)
        · next acc1 probs1 heq1 =>
          obtain ⟨hval1, t1, ht1⟩ := ihP s provs acc probs (acc1, probs1) heq1
            (hnf s (List.mem_cons_self s ss)) hacc
          obtain ⟨hval2, t2, ht2⟩ := ihO ss provs acc1 probs1 r h
            (fun x hx => hnf x (List.mem_cons_of_mem s hx)) hval1
          exact ⟨hval2, t1 ++ t2, by dsimp only at ht1; rw [ht2, ht1, List.append_assoc]⟩
    · -- provLoop
      intro sol provs acc probs r h hsol hacc
      cases provs with
      | nil =>
        simp only [provLoop] at h
        injection h with h1
        subst h1
        exact ⟨hacc, [], by simp⟩
      | cons q qs =>
        simp only [provLoop] at h
        split at h
        · exact absurd h (by simp)
        · next new1 probs1 heq1 =>
          obtain ⟨hval1, t1, ht1⟩ := ihE q sol probs (new1, probs1) heq1 hsol
          have hacc1 : ∀ s ∈ acc ++ new1, s.is_valid = false := by
            intro x hx
            rcases List.mem_append.mp hx with hx1 | hx2
            · exact hacc x hx1
            · exact hval1 x hx2
          obtain ⟨hval2, t2, ht2⟩ := ihP sol qs (acc ++ new1) probs1 r h hsol hacc1
          exact ⟨hval2, t1 ++ t2, by dsimp only at ht1; rw [ht2, ht1, List.append_assoc]⟩

/-- `pkgEq` is reflexive. -/
theorem pkgEq_refl (p : Package) : pkgEq p p = true := by
  simp [pkgEq]

/-- `pkgEq` is transitive. -/
theorem pkgEq_trans {a b c : Package} (h1 : pkgEq a b = true) (h2 : pkgEq b c = true) :
    pkgEq a c = true := by
  simp only [pkgEq, Bool.and_eq_true, beq_iff_eq] at h1 h2 ⊢
  exact ⟨h1.1.trans h2.1, h1.2.trans h2.2⟩

/-- `pkgEq` is symmetric. -/
theorem pkgEq_symm {a b : Package} (h : pkgEq a b = true) : pkgEq b a = true := by
  simp only [pkgEq, Bool.and_eq_true, beq_iff_eq] at h ⊢
  exact ⟨h.1.symm, h.2.symm⟩

/-- Transfer of list membership along `pkgEq`. -/
theorem memPkg_of_pkgEq {x y : Package} {l : List Package} (hxy : pkgEq x y = true)
    (hy : memPkg y l = true) : memPkg x l = true := by
  simp only [memPkg, List.any_eq_true] at hy ⊢
  obtain ⟨z, hz, hyz⟩ := hy
  exact ⟨z, hz, pkgEq_trans hxy hyz⟩

/-- Membership in a list element gives `memPkg`. -/
theorem memPkg_of_mem {x : Package} {l : List Package} (h : x ∈ l) : memPkg x l = true := by
  simp only [memPkg, List.any_eq_true]
  exact ⟨x, h, pkgEq_refl x⟩

/-- `memPkg` distributes over append. -/
theorem memPkg_append {x : Package} {a b : List Package} :
    memPkg x (a ++ b) = (memPkg x a || memPkg x b) := by
  simp [memPkg, List.any_append]

/-- `memPkg` across `dedupPkg`'s fold. -/
theorem memPkg_dedupPkg_foldl (x : Package) :
    ∀ (l acc : List Package),
      memPkg x (l.foldl (fun acc p => if memPkg p acc then acc else acc ++ [p]) acc) =
        (memPkg x acc || memPkg x l) := by
  intro l
  induction l with
  | nil => intro acc; simp [memPkg]
  | cons p t ih =>
    intro acc
    simp only [List.foldl_cons]
    by_cases hp : memPkg p acc
    · rw [if_pos hp, ih]
      simp only [memPkg, List.any_cons]
      by_cases hxp : pkgEq x p
      · have : memPkg x acc = true := memPkg_of_pkgEq hxp hp
        simp [memPkg] at this
        simp [this, hxp]
      · simp only [Bool.false_eq_true] at hxp
        simp [hxp]
    · rw [if_neg hp, ih]
      simp only [memPkg, List.any_append, List.any_cons, List.any_nil]
      cases hxa : List.any acc (pkgEq x) <;> cases hxp : pkgEq x p <;> simp
  
/-- Membership in `dedupPkg` is membership in the original list. -/
theorem memPkg_dedupPkg (x : Package) (l : List Package) :
    memPkg x (dedupPkg l) = memPkg x l := by
  unfold dedupPkg
  rw [memPkg_dedupPkg_foldl]
  simp [memPkg]

/-- Membership in `addPkgIfAbsent`. -/
theorem memPkg_addPkgIfAbsent (x p : Package) (l : List Package) :
    memPkg x (addPkgIfAbsent l p) = (memPkg x l || pkgEq x p) := by
  unfold addPkgIfAbsent
  by_cases hp : memPkg p l
  · rw [if_pos hp]
    by_cases hxp : pkgEq x p
    · have : memPkg x l = true := memPkg_of_pkgEq hxp hp
      simp [this, hxp]
    · simp only [Bool.false_eq_true] at hxp
      simp [hxp]
  · rw [if_neg hp, memPkg_append]
    simp [memPkg]

/-- Membership of `x` in the recorded conflict set `C ∪ {self}`. -/
theorem memPkg_mkConflictSet (x self : Package) (conflict_system : List Package) :
    memPkg x (mkConflictSet conflict_system self) =
      (memPkg x conflict_system || pkgEq x self) := by
  unfold mkConflictSet
  rw [memPkg_addPkgIfAbsent, memPkg_dedupPkg]

/-- `listPkgEq` is reflexive. -/
theorem listPkgEq_refl (l : List Package) : listPkgEq l l = true := by
  induction l with
  | nil => rfl
  | cons p t ih => simp [listPkgEq, pkgEq_refl, ih]

/-- `setPkgEq` is reflexive. -/
theorem setPkgEq_refl (l : List Package) : setPkgEq l l = true := by
  simp only [setPkgEq, Bool.and_eq_true, List.all_eq_true]
  exact ⟨fun p hp => memPkg_of_mem hp, fun p hp => memPkg_of_mem hp⟩

/-- `probEq` is reflexive. -/
theorem probEq_refl (p : Problem) : probEq p p = true := by
  cases p with
  | cycle l => simp [probEq, listPkgEq_refl]
  | conflict s w => simp [probEq, setPkgEq_refl, listPkgEq_refl]
  | notProvided d q => simp [probEq, pkgEq_refl]

/-- A problem just added is a member. -/
theorem memProb_addProblem_self (probs : List Problem) (p : Problem) :
    memProb p (addProblem probs p) = true := by
  unfold addProblem memProb
  by_cases hp : probs.any (probEq p)
  · simp [hp]
  · simp only [hp, Bool.false_eq_true, if_false, List.any_append, List.any_cons, List.any_nil]
    simp [probEq_refl]

/-- `memProb` persists under appending. -/
theorem memProb_append_left {p : Problem} {a : List Problem} (t : List Problem)
    (h : memProb p a = true) : memProb p (a ++ t) = true := by
  unfold memProb at h ⊢
  rw [List.any_append, h]
  rfl

/-- Claim C5 (amended): in `solutions_for_dep_problem`, when the
conflict set `C` computed against the system built from
`visited_packages` is non-empty and the solution is *still valid*, a
`Conflict` problem whose package set is `C ∪ {self}` and whose path runs
from the minimum visited index of any member of `C` to the end of
`visited_packages` with `self` appended is recorded and survives to the
returned problem set; the solution is marked invalid but `self`'s deps
are still expanded and `self` is still appended to every returned
branch. When the solution is already invalid, no record is made
(counterexample above) though the branch stays invalid. -/
theorem claim_C5_amended (I U : System) (O : Bool) (D : List String) (fuel : Nat)
    (self : Package) (sol : DepAlgoSolution) (probs : List Problem) (visited_sys : System)
    (r : List DepAlgoSolution × List Problem)
    (hnp : memPkg self sol.packages_in_solution = false)
    (hnv : memPkg self sol.visited_packages = false)
    (hsys : System.ofPackages sol.visited_packages = some visited_sys)
    (hC : (visited_sys.conflicting_with self).isEmpty = false)
    (hval : sol.is_valid = true)
    (h : solutions_for_dep_problem I U O D (fuel + 1) self sol probs = some r) :
    memProb (Problem.conflict (mkConflictSet (visited_sys.conflicting_with self) self)
      ((sol.visited_packages.drop (minIndexOf sol.visited_packages
        (visited_sys.conflicting_with self))) ++ [self])) r.2 = true ∧
    (∀ x, memPkg x (mkConflictSet (visited_sys.conflicting_with self) self) =
      (memPkg x (visited_sys.conflicting_with self) || pkgEq x self)) ∧
    (∀ out ∈ r.1, out.is_valid = false ∧ memPkg self out.packages_in_solution = true) := by
  simp only [solutions_for_dep_problem] at h
  rw [hnp] at h
  rw [if_neg (by simp)] at h
  rw [hnv] at h
  rw [if_neg (by simp), if_neg (by simp)] at h
  rw [hsys] at h
  dsimp only at h
  rw [hC, hval] at h
  simp only [Bool.not_false, Bool.and_true, Bool.true_and, if_true] at h
  split at h
  · exact absurd h (by simp)
  · next cur2 probs2 heq2 =>
    obtain ⟨hinv2, t2, ht2⟩ := ((invalidPack I U O D fuel).2.1) self self.relevant_deps
      [{ sol with
          visited_packages := sol.visited_packages ++ [self],
          is_valid := false }] _ (cur2, probs2) (by simpa using heq2)
      (by intro s hs; rw [List.mem_singleton.mp hs])
    have hany : cur2.any (fun s => s.is_valid) = false := by
      rw [List.any_eq_false]
      intro x hx
      simp [hinv2 x hx]
    rw [hany] at h
    simp only [Bool.false_eq_true, if_false] at h
    injection h with h1
    subst h1
    dsimp only at ht2 ⊢
    refine ⟨?_, fun x => memPkg_mkConflictSet x self _, ?_⟩
    · rw [ht2]
      exact memProb_append_left t2 (memProb_addProblem_self probs _)
    · intro out hout
      obtain ⟨s0, hs0, hmap⟩ := List.mem_map.mp hout
      subst hmap
      refine ⟨hinv2 s0 hs0, ?_⟩
      dsimp only
      rw [memPkg_append]
      simp [memPkg, pkgEq_refl]

/-- Witness for the amended claim C5 at a concrete conflicting input. -/
theorem claim_C5_witness :
    ((fx5qsys.conflicting_with fx5p).isEmpty = false ∧ fx5solValid.is_valid = true ∧
     solutions_for_dep_problem emptySystem emptySystem true [] 5 fx5p fx5solValid [] =
       some ([⟨[fx5p], [fx5q, fx5p], [], false⟩],
         [Problem.conflict [fx5q, fx5p] [fx5q, fx5p]])) ∧
    memProb (Problem.conflict (mkConflictSet (fx5qsys.conflicting_with fx5p) fx5p)
      ((fx5solValid.visited_packages.drop (minIndexOf fx5solValid.visited_packages
        (fx5qsys.conflicting_with fx5p))) ++ [fx5p]))
      [Problem.conflict [fx5q, fx5p] [fx5q, fx5p]] = true ∧
    (∀ out ∈ ([⟨[fx5p], [fx5q, fx5p], [], false⟩] : List DepAlgoSolution),
      out.is_valid = false ∧ memPkg fx5p out.packages_in_solution = true) := by
  have hmain := claim_C5_amended emptySystem emptySystem true [] 4 fx5p fx5solValid [] fx5qsys
    ([⟨[fx5p], [fx5q, fx5p], [], false⟩], [Problem.conflict [fx5q, fx5p] [fx5q, fx5p]])
    (by decide) (by decide) (by decide) (by decide) (by decide) (by decide)
  exact ⟨by decide, hmain.1, hmain.2.2⟩

/-- Dropping up to `findIdx` exposes an element satisfying the
predicate. -/
theorem drop_findIdx_cons (p : Package → Bool) :
    ∀ (l : List Package), l.any p = true →
      ∃ a t, l.drop (l.findIdx p) = a :: t ∧ p a = true := by
  intro l
  induction l with
  | nil => intro h; simp at h
  | cons x xs ih =>
    intro h
    by_cases hx : p x
    · exact ⟨x, xs, by simp [List.findIdx_cons, hx], hx⟩
    · have hxs : xs.any p = true := by
        rw [List.any_cons] at h
        rcases Bool.or_eq_true_iff.mp h with h1 | h1
        · exact absurd h1 hx
        · exact h1
      obtain ⟨a, t, hdrop, hpa⟩ := ih hxs
      refine ⟨a, t, ?_, hpa⟩
      rw [List.findIdx_cons]
      simp only [hx, cond_false]
      simpa using hdrop

/-- Membership after `addProblem`. -/
theorem mem_addProblem {q x : Problem} {probs : List Problem}
    (h : q ∈ addProblem probs x) : q ∈ probs ∨ q = x := by
  unfold addProblem at h
  split at h
  · exact Or.inl h
  · rcases List.mem_append.mp h with h1 | h1
    · exact Or.inl h1
    · exact Or.inr (List.mem_singleton.mp h1)

/-- Flip of `memPkg` to the predicate orientation used by
`indexOfPkg`. -/
theorem any_pkgEq_of_memPkg {self : Package} {l : List Package}
    (h : memPkg self l = true) : (l.any fun q => pkgEq q self) = true := by
  simp only [memPkg, List.any_eq_true] at h ⊢
  obtain ⟨z, hz, he⟩ := h
  exact ⟨z, hz, pkgEq_symm he⟩

/-- The cycle recorded at lines 318-320 has the required shape. -/
theorem cycleRecord_shape (self : Package) (visited : List Package)
    (hmem : memPkg self visited = true)
    (hrepo : (!(self.type_of == PossibleTypes.REPO_PACKAGE)) = true) :
    CycShape ((visited.drop (indexOfPkg visited self)) ++ [self]) := by
  obtain ⟨a, t, hdrop, hpa⟩ := drop_findIdx_cons (fun q => pkgEq q self) visited
    (any_pkgEq_of_memPkg hmem)
  unfold indexOfPkg
  rw [hdrop]
  constructor
  · simp
  · exact ⟨a, self, by simp, List.getLast?_concat _, hpa, by simpa using hrepo⟩

/-- Cycle-shape pack: every problem present after a solver call was
already present before it, or — if it is a `Cycle` — has the `CycShape`
form (recorded only at the revisit of a non-REPO package, lines
316-321). One conjunct per function of the mutual recursion. -/
theorem cycleShapePack (I U : System) (O : Bool) (D : List String) : ∀ fuel : Nat,
    (∀ self sol probs r,
      solutions_for_dep_problem I U O D fuel self sol probs = some r →
      ∀ q ∈ r.2, q ∈ probs ∨ ∀ l, q = Problem.cycle l → CycShape l) ∧
    (∀ self deps cur probs r,
      depLoop I U O D fuel self deps cur probs = some r →
      ∀ q ∈ r.2, q ∈ probs ∨ ∀ l, q = Problem.cycle l → CycShape l) ∧
    (∀ self dep cur probs r,
      depStep I U O D fuel self dep cur probs = some r →
      ∀ q ∈ r.2, q ∈ probs ∨ ∀ l, q = Problem.cycle l → CycShape l) ∧
    (∀ notfin provs acc probs r,
      orLoop I U O D fuel notfin provs acc probs = some r →
      ∀ q ∈ r.2, q ∈ probs ∨ ∀ l, q = Problem.cycle l → CycShape l) ∧
    (∀ sol provs acc probs r,
      provLoop I U O D fuel sol provs acc probs = some r →
      ∀ q ∈ r.2, q ∈ probs ∨ ∀ l, q = Problem.cycle l → CycShape l) := by
  intro fuel
  induction fuel with
  | zero =>
    refine ⟨?_, ?_, ?_, ?_, ?_⟩
    · intro self sol probs r h
      exact absurd h (by simp [solutions_for_dep_problem])
    · intro self deps cur probs r h
      exact absurd h (by simp [depLoop])
    · intro self dep cur probs r h
      exact absurd h (by simp [depStep])
    · intro notfin provs acc probs r h
      exact absurd h (by simp [orLoop])
    · intro sol provs acc probs r h
      exact absurd h (by simp [provLoop])
  | succ n ih =>
    obtain ⟨ihE, ihL, ihS, ihO, ihP⟩ := ih
    refine ⟨?_, ?_, ?_, ?_, ?_⟩
    · -- solutions_for_dep_problem
      intro self sol probs r h q hq
      simp only [solutions_for_dep_problem] at h
      split at h
      · injection h with h1
        subst h1
        exact Or.inl hq
      · split at h
        · next hbranch =>
          -- cycle-condition branch
          split at h
          · injection h with h1
            subst h1
            rcases mem_addProblem hq with h1 | h1
            · exact Or.inl h1
            · right
              intro l hl
              rw [h1] at hl
              injection hl with hl1
              rw [← hl1]
              obtain ⟨hmem, hrepo⟩ := Bool.and_eq_true_iff.mp hbranch
              exact cycleRecord_shape self sol.visited_packages hmem hrepo
          · injection h with h1
            subst h1
            exact Or.inl hq
        · split at h
          · -- REPO revisit
            injection h with h1
            subst h1
            exact Or.inl hq
          · -- main path
            split at h
            · exact absurd h (by simp)
            · next visited_sys heq =>
              split at h
              · exact absurd h (by simp)
              · next cur2 probs2 heq2 =>
                have hsub := ihL self self.relevant_deps _ _ (cur2, probs2) heq2
                injection h with h1
                subst h1
                dsimp only at hq
                split at hq
                · exact absurd hq (by simp)
                · rcases hsub q hq with h1 | h1
                  · by_cases hcond : ((!(visited_sys.conflicting_with self).isEmpty) &&
                        sol.is_valid) = true
                    · rw [if_pos hcond] at h1
                      rcases mem_addProblem h1 with h2 | h2
                      · exact Or.inl h2
                      · right
                        intro l hl
                        rw [h2] at hl
                        exact absurd hl (by simp)
                    · rw [if_neg hcond] at h1
                      exact Or.inl h1
                  · exact Or.inr h1
    · -- depLoop
      intro self deps cur probs r h q hq
      cases deps with
      | nil =>
        simp only [depLoop] at h
        injection h with h1
        subst h1
        exact Or.inl hq
      | cons d ds =>
        simp only [depLoop] at h
        split at h
        · exact absurd h (by simp)
        · next cur1 probs1 heq1 =>
          rcases ihL self ds cur1 probs1 r h q hq with h1 | h1
          · rcases ihS self d cur probs (cur1, probs1) heq1 q h1 with h2 | h2
            · exact Or.inl h2
            · exact Or.inr h2
          · exact Or.inr h1
    · -- depStep
      intro self dep cur probs r h q hq
      simp only [depStep] at h
      split at h
      · injection h with h1
        subst h1
        exact Or.inl hq
      · split at h
        · exact absurd h (by simp)
        · next fins notfins heqsplit =>
          rcases ihO notfins _ fins _ r h q hq with h1 | h1
          · by_cases hcond : (U.provided_by dep).isEmpty = true
            · rw [if_pos hcond] at h1
              rcases mem_addProblem h1 with h2 | h2
              · exact Or.inl h2
              · right
                intro l hl
                rw [h2] at hl
                exact absurd hl (by simp)
            · rw [if_neg hcond] at h1
              exact Or.inl h1
          · exact Or.inr h1
    · -- orLoop
      intro notfin provs acc probs r h q hq
      cases notfin with
      | nil =>
        simp only [orLoop] at h
        injection h with h1
        subst h1
        exact Or.inl hq
      | cons s ss =>
        simp only [orLoop] at h
        split at h
        · exact absurd h (by simp)
        · next acc1 probs1 heq1 =>
          rcases ihO ss provs acc1 probs1 r h q hq with h1 | h1
          · rcases ihP s provs acc probs (acc1, probs1) heq1 q h1 with h2 | h2
            · exact Or.inl h2
            · exact Or.inr h2
          · exact Or.inr h1
    · -- provLoop
      intro sol provs acc probs r h q hq
      cases provs with
      | nil =>
        simp only [provLoop] at h
        injection h with h1
        subst h1
        exact Or.inl hq
      | cons p ps =>
        simp only [provLoop] at h
        split at h
        · exact absurd h (by simp)
        · next new1 probs1 heq1 =>
          rcases ihP sol ps (acc ++ new1) probs1 r h q hq with h1 | h1
          · rcases ihE p sol probs (new1, probs1) heq1 q h1 with h2 | h2
            · exact Or.inl h2
            · exact Or.inr h2
          · exact Or.inr h1

/-- A `getLast? = some` element is a member. -/
theorem mem_of_getLast?_eq {α : Type} {l : List α} {b : α} (h : l.getLast? = some b) :
    b ∈ l := by
  obtain ⟨hne, hb⟩ := List.mem_getLast?_eq_getLast (by rw [Option.mem_def]; exact h)
  rw [hb]
  exact List.getLast_mem hne

/-- Claim C10: every `DepAlgoCycle` problem added to `found_problems` by
the solver describes a closed loop: its `cycle_packages` list has at
least two entries and its first element equals (under `Package.__eq__`)
its last element — the revisited package both opens and closes the
recorded cycle. -/
theorem claim_C10 (I U : System) (O : Bool) (D : List String) (fuel : Nat)
    (self : Package) (sol : DepAlgoSolution) (probs : List Problem)
    (r : List DepAlgoSolution × List Problem)
    (h : solutions_for_dep_problem I U O D fuel self sol probs = some r)
    (q : Problem) (hq : q ∈ r.2) (hnew : q ∉ probs) :
    ∀ l, q = Problem.cycle l →
      2 ≤ l.length ∧ ∃ a b, l.head? = some a ∧ l.getLast? = some b ∧ pkgEq a b = true := by
  intro l hl
  rcases (cycleShapePack I U O D fuel).1 self sol probs r h q hq with h1 | h1
  · exact absurd h1 hnew
  · obtain ⟨hlen, a, b, ha, hb, hab, _⟩ := h1 l hl
    exact ⟨hlen, a, b, ha, hb, hab⟩

/-- Witness for claim C10 at the concrete AUR dependency cycle. -/
theorem claim_C10_witness :
    (solutions_for_dep_problem emptySystem upAur true [] 2 aurA ⟨[], [aurA, aurB], [], true⟩
        [] = some ([], [Problem.cycle [aurA, aurB, aurA]]) ∧
      Problem.cycle [aurA, aurB, aurA] ∈
        (([], [Problem.cycle [aurA, aurB, aurA]]) :
          List DepAlgoSolution × List Problem).2 ∧
      Problem.cycle [aurA, aurB, aurA] ∉ ([] : List Problem)) ∧
    (2 ≤ ([aurA, aurB, aurA] : List Package).length ∧
      ∃ a b, ([aurA, aurB, aurA] : List Package).head? = some a ∧
        ([aurA, aurB, aurA] : List Package).getLast? = some b ∧ pkgEq a b = true) :=
  ⟨⟨by decide, by decide, by decide⟩,
    claim_C10 emptySystem upAur true [] 2 aurA ⟨[], [aurA, aurB], [], true⟩ []
      ([], [Problem.cycle [aurA, aurB, aurA]]) (by decide)
      (Problem.cycle [aurA, aurB, aurA]) (by decide) (by decide)
      [aurA, aurB, aurA] rfl⟩

/-- Claim C6: expanding a package `p` already in `visited_packages`
behaves as follows: if `p` is a REPO package the solution is returned
unchanged (and no problem is recorded); if `p` is not REPO, no solutions
are returned; and every cycle record ever added contains a non-REPO
package (its closing, revisited element), so a dependency cycle composed
entirely of REPO packages never produces a `Cycle` record. -/
theorem claim_C6 (I U : System) (O : Bool) (D : List String) :
    (∀ (fuel : Nat) (self : Package) (sol : DepAlgoSolution) (probs : List Problem),
      memPkg self sol.visited_packages = true →
      self.type_of = PossibleTypes.REPO_PACKAGE →
      solutions_for_dep_problem I U O D (fuel + 1) self sol probs = some ([sol], probs)) ∧
    (∀ (fuel : Nat) (self : Package) (sol : DepAlgoSolution) (probs : List Problem)
      (r : List DepAlgoSolution × List Problem),
      memPkg self sol.visited_packages = true →
      self.type_of ≠ PossibleTypes.REPO_PACKAGE →
      memPkg self sol.packages_in_solution = false →
      solutions_for_dep_problem I U O D (fuel + 1) self sol probs = some r → r.1 = []) ∧
    (∀ (fuel : Nat) (self : Package) (sol : DepAlgoSolution) (probs : List Problem)
      (r : List DepAlgoSolution × List Problem),
      solutions_for_dep_problem I U O D fuel self sol probs = some r →
      ∀ q ∈ r.2, q ∉ probs → ∀ l, q = Problem.cycle l →
        ∃ x ∈ l, x.type_of ≠ PossibleTypes.REPO_PACKAGE) := by
  refine ⟨?_, ?_, ?_⟩
  · intro fuel self sol probs hmem htype
    simp only [solutions_for_dep_problem]
    by_cases hp : memPkg self sol.packages_in_solution = true
    · rw [if_pos hp]
    · rw [if_neg hp]
      rw [if_neg (by simp [htype])]
      rw [if_pos hmem]
  · intro fuel self sol probs r hmem htype hp h
    simp only [solutions_for_dep_problem] at h
    rw [hp] at h
    rw [if_neg (by simp)] at h
    have hcond : (memPkg self sol.visited_packages &&
        !(self.type_of == PossibleTypes.REPO_PACKAGE)) = true := by
      rw [hmem]
      simp [htype]
    rw [if_pos hcond] at h
    split at h <;>
      (injection h with h1; rw [← h1])
  · intro fuel self sol probs r h q hq hnew l hl
    rcases (cycleShapePack I U O D fuel).1 self sol probs r h q hq with h1 | h1
    · exact absurd h1 hnew
    · obtain ⟨_, _, b, _, hb, _, hbr⟩ := h1 l hl
      exact ⟨b, mem_of_getLast?_eq hb, hbr⟩

/-- Witness for claim C6: a visited REPO package is returned unchanged
at a concrete input. -/
theorem claim_C6_witness :
    (memPkg repoA ([repoA] : List Package) = true ∧
      repoA.type_of = PossibleTypes.REPO_PACKAGE) ∧
    solutions_for_dep_problem emptySystem upRepo true [] 3 repoA ⟨[], [repoA], [], true⟩ [] =
      some ([⟨[], [repoA], [], true⟩], []) :=
  ⟨⟨by decide, by decide⟩,
    (claim_C6 emptySystem upRepo true []).1 2 repoA ⟨[], [repoA], [], true⟩ []
      (by decide) (by decide)⟩

/-- Entries produced by `addNameDict` beyond the initial dict are keyed
by their package's name, with the package drawn from the inserted
list. -/
theorem addNameDict_spec :
    ∀ (ps : List Package) (d d' : List (String × Package)),
      addNameDict d ps = some d' →
      ∀ kv ∈ d', kv ∈ d ∨ (kv.1 = kv.2.name ∧ kv.2 ∈ ps) := by
  intro ps
  induction ps with
  | nil =>
    intro d d' h kv hkv
    simp only [addNameDict] at h
    injection h with h1
    subst h1
    exact Or.inl hkv
  | cons p pt ih =>
    intro d d' h kv hkv
    simp only [addNameDict] at h
    split at h
    · exact absurd h (by simp)
    · rcases ih (d ++ [(p.name, p)]) d' h kv hkv with h1 | h1
      · rcases List.mem_append.mp h1 with h2 | h2
        · exact Or.inl h2
        · right
          rw [List.mem_singleton.mp h2]
          exact ⟨rfl, List.mem_cons_self p pt⟩
      · exact Or.inr ⟨h1.1, List.mem_cons_of_mem p h1.2⟩

/-- In a constructed system, every name-index entry is keyed by its
package's name and holds a member of the constructing list. -/
theorem ofPackages_dict_spec {ps : List Package} {s : System}
    (h : System.ofPackages ps = some s) :
    ∀ kv ∈ s.all_packages_dict, kv.1 = kv.2.name ∧ kv.2 ∈ ps := by
  intro kv hkv
  unfold System.ofPackages System.append_packages at h
  split at h
  · exact absurd h (by simp)
  · next d heq =>
    injection h with h1
    subst h1
    rcases addNameDict_spec ps _ d heq kv hkv with h1 | h1
    · exact absurd h1 (by simp [emptySystem])
    · exact h1

/-- Constructed systems have a name-consistent name index. -/
theorem ofPackages_nameConsistent {ps : List Package} {s : System}
    (h : System.ofPackages ps = some s) : s.nameConsistent :=
  fun kv hkv => ((ofPackages_dict_spec h) kv hkv).1.symm

/-- `lookupAssoc` finds an entry of the association list. -/
theorem lookupAssoc_mem {α : Type} {d : List (String × α)} {k : String} {v : α}
    (h : lookupAssoc d k = some v) : ∃ kv ∈ d, kv.1 = k ∧ kv.2 = v := by
  unfold lookupAssoc at h
  rcases hf : d.find? (fun kv => kv.1 == k) with _ | kv
  · rw [hf] at h; exact absurd h (by simp)
  · rw [hf] at h
    injection h with h1
    refine ⟨kv, List.mem_of_find?_eq_some hf, ?_, h1⟩
    have := List.find?_some hf
    simpa using this

/-- `System.lookupName` on a constructed system returns a member of the
constructing list carrying the looked-up name. -/
theorem ofPackages_lookupName {ps : List Package} {s : System} {n : String} {p : Package}
    (h : System.ofPackages ps = some s) (hl : s.lookupName n = some p) :
    p ∈ ps ∧ p.name = n := by
  obtain ⟨kv, hkv, hk, hv⟩ := lookupAssoc_mem hl
  obtain ⟨h1, h2⟩ := ofPackages_dict_spec h kv hkv
  rw [← hv, ← hk]
  exact ⟨h2, h1.symm⟩

/-- `upsertXDict` adds only the given package to entries. -/
theorem upsertXDict_mem {d : List (String × List Package)} {vn : String} {p q : Package}
    (h : inXDict (upsertXDict d vn p) q) : inXDict d q ∨ q = p := by
  obtain ⟨n, l, hnl, hq⟩ := h
  unfold upsertXDict at hnl
  split at hnl
  · obtain ⟨kv, hkv, hmap⟩ := List.mem_map.mp hnl
    by_cases hk : (kv.1 == vn) = true
    · rw [if_pos hk] at hmap
      injection hmap with h1 h2
      subst h2
      rcases List.mem_append.mp hq with h3 | h3
      · exact Or.inl ⟨kv.1, kv.2, by simpa using hkv, h3⟩
      · exact Or.inr (List.mem_singleton.mp h3)
    · rw [if_neg hk] at hmap
      exact Or.inl ⟨n, l, hmap ▸ hkv, hq⟩
  · rcases List.mem_append.mp hnl with h3 | h3
    · exact Or.inl ⟨n, l, h3, hq⟩
    · have := List.mem_singleton.mp h3
      injection this with h1 h2
      subst h2
      exact Or.inr (List.mem_singleton.mp hq)

/-- `appendToXDictOne` adds only the given package to entries. -/
theorem appendToXDictOne_mem {p q : Package} :
    ∀ (vals : List String) (d : List (String × List Package)),
      inXDict (appendToXDictOne d p vals) q → inXDict d q ∨ q = p := by
  intro vals
  induction vals with
  | nil => intro d h; exact Or.inl h
  | cons v vt ih =>
    intro d h
    unfold appendToXDictOne at h
    simp only [List.foldl_cons] at h
    rcases ih _ h with h1 | h1
    · exact upsertXDict_mem h1
    · exact Or.inr h1

/-- `appendToXDict` adds only packages from the appended list. -/
theorem appendToXDict_mem {q : Package} {proj : Package → List String} :
    ∀ (ps : List Package) (d : List (String × List Package)),
      inXDict (appendToXDict d ps proj) q → inXDict d q ∨ q ∈ ps := by
  intro ps
  induction ps with
  | nil => intro d h; exact Or.inl h
  | cons p pt ih =>
    intro d h
    unfold appendToXDict at h
    simp only [List.foldl_cons] at h
    rcases ih _ h with h1 | h1
    · rcases appendToXDictOne_mem _ _ h1 with h2 | h2
      · exact Or.inl h2
      · exact Or.inr (h2 ▸ List.mem_cons_self p pt)
    · exact Or.inr (List.mem_cons_of_mem p h1)

/-- Members of a provides-index entry of a constructed system come from
the constructing list. -/
theorem ofPackages_provides_mem {ps : List Package} {s : System} {n : String}
    {l : List Package} {q : Package} (h : System.ofPackages ps = some s)
    (hl : lookupAssoc s.provides_dict n = some l) (hq : q ∈ l) : q ∈ ps := by
  obtain ⟨kv, hkv, hk, hv⟩ := lookupAssoc_mem hl
  have hin : inXDict s.provides_dict q := ⟨kv.1, kv.2, by simpa using hkv, by rw [hv]; exact hq⟩
  unfold System.ofPackages System.append_packages at h
  split at h
  · exact absurd h (by simp)
  · injection h with h1
    rw [← h1] at hin
    dsimp only at hin
    rcases appendToXDict_mem ps _ hin with h2 | h2
    · obtain ⟨n0, l0, hn0, _⟩ := h2
      exact absurd hn0 (by simp [emptySystem])
    · exact h2

/-- Members of a conflicts-index entry of a constructed system come from
the constructing list. -/
theorem ofPackages_conflicts_mem {ps : List Package} {s : System} {n : String}
    {l : List Package} {q : Package} (h : System.ofPackages ps = some s)
    (hl : lookupAssoc s.conflicts_dict n = some l) (hq : q ∈ l) : q ∈ ps := by
  obtain ⟨kv, hkv, hk, hv⟩ := lookupAssoc_mem hl
  have hin : inXDict s.conflicts_dict q := ⟨kv.1, kv.2, by simpa using hkv, by rw [hv]; exact hq⟩
  unfold System.ofPackages System.append_packages at h
  split at h
  · exact absurd h (by simp)
  · injection h with h1
    rw [← h1] at hin
    dsimp only at hin
    rcases appendToXDict_mem ps _ hin with h2 | h2
    · obtain ⟨n0, l0, hn0, _⟩ := h2
      exact absurd hn0 (by simp [emptySystem])
    · exact h2

/-- Members contributed by the inner provides loop of `provided_by` are
the candidate package, with a matching provide. -/
theorem providesFoldl_mem (dep_name dep_cmp dep_version : String) (package : Package) :
    ∀ (provides : List String) (acc : List Package) (x : Package),
      x ∈ provides.foldl
        (fun acc2 provide =>
          let (provide_name, provide_cmp, provide_version) := split_name_with_versioning provide
          if provide_name != dep_name then acc2
          else if dep_cmp == "" then acc2 ++ [package]
          else if (provide_cmp == "=" || provide_cmp == "==") &&
              version_comparison provide_version dep_cmp dep_version then acc2 ++ [package]
          else if (provide_cmp == "") &&
              version_comparison package.version dep_cmp dep_version then acc2 ++ [package]
          else acc2)
        acc →
      x ∈ acc ∨ (x = package ∧
        provides.any (provideMatch dep_name dep_cmp dep_version package) = true) := by
  intro provides
  induction provides with
  | nil => intro acc x h; exact Or.inl h
  | cons pr prt ih =>
    intro acc x h
    simp only [List.foldl_cons] at h
    rw [List.any_cons]
    rcases hsplit : split_name_with_versioning pr with ⟨provide_name, pcv⟩
    rcases pcv with ⟨provide_cmp, provide_version⟩
    rw [hsplit] at h
    dsimp only at h
    have hmatch : ∀ hcond : provideMatch dep_name dep_cmp dep_version package pr = true,
        x ∈ acc ++ [package] →
        x ∈ acc ∨ (x = package ∧
          (provideMatch dep_name dep_cmp dep_version package pr ||
            prt.any (provideMatch dep_name dep_cmp dep_version package)) = true) := by
      intro hcond hx
      rcases List.mem_append.mp hx with h1 | h1
      · exact Or.inl h1
      · exact Or.inr ⟨List.mem_singleton.mp h1, by rw [hcond]; rfl⟩
    by_cases h1 : (provide_name != dep_name) = true
    · rw [if_pos h1] at h
      rcases ih acc x h with h2 | ⟨h2, h3⟩
      · exact Or.inl h2
      · exact Or.inr ⟨h2, by rw [h3, Bool.or_true]⟩
    · rw [if_neg h1] at h
      have hname : (provide_name == dep_name) = true := by
        simpa using h1
      by_cases h2 : (dep_cmp == "") = true
      · rw [if_pos h2] at h
        rcases ih _ x h with h3 | ⟨h3, h4⟩
        · exact hmatch (by simp [provideMatch, hsplit, hname, h2]) h3
        · exact Or.inr ⟨h3, by rw [h4, Bool.or_true]⟩
      · rw [if_neg h2] at h
        by_cases h3 : ((provide_cmp == "=" || provide_cmp == "==") &&
            version_comparison provide_version dep_cmp dep_version) = true
        · rw [if_pos h3] at h
          rcases ih _ x h with h4 | ⟨h4, h5⟩
          · exact hmatch (by simp only [provideMatch, hsplit]; rw [hname]; simp [h3]) h4
          · exact Or.inr ⟨h4, by rw [h5, Bool.or_true]⟩
        · rw [if_neg h3] at h
          by_cases h4 : ((provide_cmp == "") &&
              version_comparison package.version dep_cmp dep_version) = true
          · rw [if_pos h4] at h
            rcases ih _ x h with h5 | ⟨h5, h6⟩
            · exact hmatch (by simp only [provideMatch, hsplit]; rw [hname]; simp [h4]) h5
            · exact Or.inr ⟨h5, by rw [h6, Bool.or_true]⟩
          · rw [if_neg h4] at h
            rcases ih acc x h with h5 | ⟨h5, h6⟩
            · exact Or.inl h5
            · exact Or.inr ⟨h5, by rw [h6, Bool.or_true]⟩

/-- Members contributed by the outer candidates loop of `provided_by`
are entry members with a matching provide. -/
theorem providedByOuterFoldl_mem (dep_name dep_cmp dep_version : String) :
    ∀ (entry : List Package) (acc : List Package) (x : Package),
      x ∈ entry.foldl
        (fun acc package =>
          if memPkg package acc then acc
          else
            acc ++ package.provides.foldl
              (fun acc2 provide =>
                let (provide_name, provide_cmp, provide_version) :=
                  split_name_with_versioning provide
                if provide_name != dep_name then acc2
                else if dep_cmp == "" then acc2 ++ [package]
                else if (provide_cmp == "=" || provide_cmp == "==") &&
                    version_comparison provide_version dep_cmp dep_version then
                  acc2 ++ [package]
                else if (provide_cmp == "") &&
                    version_comparison package.version dep_cmp dep_version then
                  acc2 ++ [package]
                else acc2)
              [])
        acc →
      x ∈ acc ∨ ∃ pkg ∈ entry, x = pkg ∧
        pkg.provides.any (provideMatch dep_name dep_cmp dep_version pkg) = true := by
  intro entry
  induction entry with
  | nil => intro acc x h; exact Or.inl h
  | cons pkg pkgt ih =>
    intro acc x h
    simp only [List.foldl_cons] at h
    by_cases hmem : memPkg pkg acc
    · rw [if_pos hmem] at h
      rcases ih acc x h with h1 | ⟨p0, hp0, hrest⟩
      · exact Or.inl h1
      · exact Or.inr ⟨p0, List.mem_cons_of_mem pkg hp0, hrest⟩
    · rw [if_neg hmem] at h
      rcases ih _ x h with h1 | ⟨p0, hp0, hrest⟩
      · rcases List.mem_append.mp h1 with h2 | h2
        · exact Or.inl h2
        · rcases providesFoldl_mem dep_name dep_cmp dep_version pkg pkg.provides [] x h2 with
            h3 | ⟨h3, h4⟩
          · exact absurd h3 (by simp)
          · exact Or.inr ⟨pkg, List.mem_cons_self pkg pkgt, h3, h4⟩
      · exact Or.inr ⟨p0, List.mem_cons_of_mem pkg hp0, hrest⟩

/-- Each member of `provided_by` comes either from the name index (with
the version predicate holding) or from a provides-index entry with a
matching provide. -/
theorem provided_by_spec {s : System} {dep : String} {q : Package}
    (hq : q ∈ s.provided_by dep) :
    ∀ dep_name dep_cmp dep_version,
      split_name_with_versioning dep = (dep_name, dep_cmp, dep_version) →
      (∃ p, s.lookupName dep_name = some p ∧ q = p ∧
        (dep_cmp == "" || version_comparison p.version dep_cmp dep_version) = true) ∨
      (∃ l, lookupAssoc s.provides_dict dep_name = some l ∧ q ∈ l ∧
        q.provides.any (provideMatch dep_name dep_cmp dep_version q) = true) := by
  intro dep_name dep_cmp dep_version hsplit
  unfold System.provided_by at hq
  rw [hsplit] at hq
  dsimp only at hq
  have hl1 : ∀ x, x ∈ (match s.lookupName dep_name with
      | none => ([] : List Package)
      | some package =>
        if dep_cmp == "" then [package]
        else if version_comparison package.version dep_cmp dep_version then [package]
        else []) →
      ∃ p, s.lookupName dep_name = some p ∧ x = p ∧
        (dep_cmp == "" || version_comparison p.version dep_cmp dep_version) = true := by
    intro x hx
    rcases hlook : s.lookupName dep_name with _ | p
    · rw [hlook] at hx
      dsimp only at hx
      exact absurd hx (by simp)
    · rw [hlook] at hx
      dsimp only at hx
      by_cases h1 : (dep_cmp == "") = true
      · rw [if_pos h1] at hx
        exact ⟨p, rfl, List.mem_singleton.mp hx, by simp [h1]⟩
      · rw [if_neg h1] at hx
        by_cases h2 : version_comparison p.version dep_cmp dep_version = true
        · rw [if_pos h2] at hx
          exact ⟨p, rfl, List.mem_singleton.mp hx, by simp [h2]⟩
        · rw [if_neg h2] at hx
          exact absurd hx (by simp)
  rcases hentry : lookupAssoc s.provides_dict dep_name with _ | entry
  · rw [hentry] at hq
    dsimp only at hq
    exact Or.inl (hl1 q hq)
  · rw [hentry] at hq
    dsimp only at hq
    rcases providedByOuterFoldl_mem dep_name dep_cmp dep_version entry _ q hq with
      h1 | ⟨p0, hp0, hqp, hany⟩
    · exact Or.inl (hl1 q h1)
    · subst hqp
      exact Or.inr ⟨entry, rfl, hp0, hany⟩

/-- `provided_by` on a constructed system returns members of the
constructing list. -/
theorem provided_by_mem {ps : List Package} {s : System} {dep : String} {q : Package}
    (h : System.ofPackages ps = some s) (hq : q ∈ s.provided_by dep) : q ∈ ps := by
  rcases hsplit : split_name_with_versioning dep with ⟨dep_name, dcv⟩
  rcases dcv with ⟨dep_cmp, dep_version⟩
  rcases provided_by_spec hq dep_name dep_cmp dep_version hsplit with
    ⟨p, hp, hqp, _⟩ | ⟨l, hl, hql, _⟩
  · exact hqp ▸ (ofPackages_lookupName h hp).1
  · exact ofPackages_provides_mem h hl hql

/-- `provided_by` is sound for `satisfiesDep` on name-consistent
systems. -/
theorem provided_by_satisfies {s : System} {dep : String} {q : Package}
    (hc : s.nameConsistent) (hq : q ∈ s.provided_by dep) : satisfiesDep q dep = true := by
  rcases hsplit : split_name_with_versioning dep with ⟨dep_name, dcv⟩
  rcases dcv with ⟨dep_cmp, dep_version⟩
  unfold satisfiesDep
  rw [hsplit]
  dsimp only
  rcases provided_by_spec hq dep_name dep_cmp dep_version hsplit with
    ⟨p, hp, hqp, hcond⟩ | ⟨_, _, _, hany⟩
  · obtain ⟨kv, hkv, hk, hv⟩ := lookupAssoc_mem hp
    have hname : p.name = dep_name := by
      rw [← hv, hc kv hkv, hk]
    subst hqp
    rw [hname]
    simp only [beq_self_eq_true, Bool.true_and]
    rw [hcond]
    rfl
  · rw [hany, Bool.or_true]

/-- Generic fold-membership principle: if each step only keeps the
accumulator or adds elements satisfying `P` of the step input, members
of the fold are accumulator members or satisfy `P` of some list
element. -/
theorem foldl_mem_param {α β : Type} (g : List β → α → List β) (P : α → β → Prop)
    (hg : ∀ acc a x, x ∈ g acc a → x ∈ acc ∨ P a x) :
    ∀ (l : List α) (acc : List β) (x : β), x ∈ l.foldl g acc → x ∈ acc ∨ ∃ a ∈ l, P a x := by
  intro l
  induction l with
  | nil => intro acc x h; exact Or.inl h
  | cons a t ih =>
    intro acc x h
    simp only [List.foldl_cons] at h
    rcases ih (g acc a) x h with h1 | ⟨a0, ha0, hp⟩
    · rcases hg acc a x h1 with h2 | h2
      · exact Or.inl h2
      · exact Or.inr ⟨a, List.mem_cons_self a t, h2⟩
    · exact Or.inr ⟨a0, List.mem_cons_of_mem a ha0, hp⟩

/-- `conflicting_with` on a constructed system returns members of the
constructing list. -/
theorem conflicting_with_mem {ps : List Package} {s : System} {p q : Package}
    (h : System.ofPackages ps = some s) (hq : q ∈ s.conflicting_with p) : q ∈ ps := by
  unfold System.conflicting_with at hq
  dsimp only at hq
  have hstep : ∀ (acc : List Package) (a : String) (y : Package),
      y ∈ (fun acc conflict =>
        let (conflict_name, conflict_cmp, conflict_version) := split_name_with_versioning conflict
        match s.lookupName conflict_name with
        | none => acc
        | some possible_conflict_package =>
          if memPkg possible_conflict_package acc then acc
          else if conflict_cmp == "" then acc ++ [possible_conflict_package]
          else if version_comparison possible_conflict_package.version conflict_cmp
              conflict_version then acc ++ [possible_conflict_package]
          else acc) acc a →
      y ∈ acc ∨ ∃ n, s.lookupName n = some y := by
    intro acc a y hy
    dsimp only at hy
    rcases hl : s.lookupName (split_name_with_versioning a).1 with _ | pcp
    · rw [hl] at hy
      dsimp only at hy
      exact Or.inl hy
    · rw [hl] at hy
      dsimp only at hy
      split at hy
      · exact Or.inl hy
      · split at hy
        · rcases List.mem_append.mp hy with h2 | h2
          · exact Or.inl h2
          · exact Or.inr ⟨_, (List.mem_singleton.mp h2) ▸ hl⟩
        · split at hy
          · rcases List.mem_append.mp hy with h2 | h2
            · exact Or.inl h2
            · exact Or.inr ⟨_, (List.mem_singleton.mp h2) ▸ hl⟩
          · exact Or.inl hy
  have hrl1 : ∀ x, x ∈ (p.conflicts.foldl
      (fun acc conflict =>
        let (conflict_name, conflict_cmp, conflict_version) := split_name_with_versioning conflict
        match s.lookupName conflict_name with
        | none => acc
        | some possible_conflict_package =>
          if memPkg possible_conflict_package acc then acc
          else if conflict_cmp == "" then acc ++ [possible_conflict_package]
          else if version_comparison possible_conflict_package.version conflict_cmp
              conflict_version then acc ++ [possible_conflict_package]
          else acc)
      (match s.lookupName p.name with
        | none => []
        | some possible_conflict_package =>
          if p.version != possible_conflict_package.version then [possible_conflict_package]
          else [])) → x ∈ ps := by
    intro x hx
    rcases foldl_mem_param _ (fun _ y => ∃ n, s.lookupName n = some y)
        (fun acc a y hy => hstep acc a y hy) p.conflicts _ x hx with h1 | ⟨_, _, n, hn⟩
    · rcases hl : s.lookupName p.name with _ | pcp
      · rw [hl] at h1
        dsimp only at h1
        exact absurd h1 (by simp)
      · rw [hl] at h1
        dsimp only at h1
        split at h1
        · exact (List.mem_singleton.mp h1) ▸ (ofPackages_lookupName h hl).1
        · exact absurd h1 (by simp)
    · exact (ofPackages_lookupName h hn).1
  have hstep3 : ∀ (a : Package) (acc2 : List Package) (c : String) (z : Package),
      z ∈ (fun acc2 conflict =>
        let (conflict_name, conflict_cmp, conflict_version) := split_name_with_versioning conflict
        if conflict_name != p.name then acc2
        else if conflict_cmp == "" then acc2 ++ [a]
        else if version_comparison p.version conflict_cmp conflict_version then acc2 ++ [a]
        else acc2) acc2 c →
      z ∈ acc2 ∨ z = a := by
    intro a acc2 c z hz
    dsimp only at hz
    split at hz
    · exact Or.inl hz
    · split at hz
      · rcases List.mem_append.mp hz with h4 | h4
        · exact Or.inl h4
        · exact Or.inr (List.mem_singleton.mp h4)
      · split at hz
        · rcases List.mem_append.mp hz with h4 | h4
          · exact Or.inl h4
          · exact Or.inr (List.mem_singleton.mp h4)
        · exact Or.inl hz
  have hstep2 : ∀ (acc : List Package) (a : Package) (y : Package),
      y ∈ (fun acc possible_conflict_package =>
        if memPkg possible_conflict_package acc then acc
        else
          acc ++ possible_conflict_package.conflicts.foldl
            (fun acc2 conflict =>
              let (conflict_name, conflict_cmp, conflict_version) :=
                split_name_with_versioning conflict
              if conflict_name != p.name then acc2
              else if conflict_cmp == "" then acc2 ++ [possible_conflict_package]
              else if version_comparison p.version conflict_cmp conflict_version then
                acc2 ++ [possible_conflict_package]
              else acc2)
            []) acc a →
      y ∈ acc ∨ y = a := by
    intro acc a y hy
    dsimp only at hy
    split at hy
    · exact Or.inl hy
    · rcases List.mem_append.mp hy with h2 | h2
      · exact Or.inl h2
      · rcases foldl_mem_param _ (fun _ z => z = a)
          (fun acc2 c z hz => hstep3 a acc2 c z hz) a.conflicts _ y h2 with h3 | ⟨_, _, h3⟩
        · exact absurd h3 (by simp)
        · exact Or.inr h3
  rcases hcd : lookupAssoc s.conflicts_dict p.name with _ | entry
  · rw [hcd] at hq
    exact hrl1 q hq
  · rw [hcd] at hq
    rcases foldl_mem_param _ (fun a y => y = a)
        (fun acc a y hy => hstep2 acc a y hy) entry _ q hq with h1 | ⟨a, ha, hqa⟩
    · exact hrl1 q h1
    · exact hqa ▸ ofPackages_conflicts_mem h hcd ha

/-- Plain-membership bound for `dedupPkg`. -/
theorem mem_dedupPkg_sub {x : Package} {l : List Package} (h : x ∈ dedupPkg l) : x ∈ l := by
  unfold dedupPkg at h
  rcases foldl_mem_param _ (fun a y => y = a)
      (fun acc a y hy => by
        split at hy
        · exact Or.inl hy
        · rcases List.mem_append.mp hy with h1 | h1
          · exact Or.inl h1
          · exact Or.inr (List.mem_singleton.mp h1))
      l [] x h with h1 | ⟨a, ha, hxa⟩
  · exact absurd h1 (by simp)
  · exact hxa ▸ ha

/-- Plain-membership bound for `addPkgIfAbsent`. -/
theorem mem_addPkgIfAbsent_sub {x p : Package} {l : List Package}
    (h : x ∈ addPkgIfAbsent l p) : x ∈ l ∨ x = p := by
  unfold addPkgIfAbsent at h
  split at h
  · exact Or.inl h
  · rcases List.mem_append.mp h with h1 | h1
    · exact Or.inl h1
    · exact Or.inr (List.mem_singleton.mp h1)

/-- Plain-membership bound for the recorded conflict set. -/
theorem mem_mkConflictSet_sub {x self : Package} {C : List Package}
    (h : x ∈ mkConflictSet C self) : x ∈ C ∨ x = self := by
  unfold mkConflictSet at h
  rcases mem_addPkgIfAbsent_sub h with h1 | h1
  · exact Or.inl (mem_dedupPkg_sub h1)
  · exact Or.inr h1

/-- Names-bound pack: with an upstream whose providers all have names in
`N`, expansion keeps every visited package's name and every problem's
relevant-package names inside `N`. One conjunct per function of the
mutual recursion. -/
theorem namesPack (I U : System) (O : Bool) (D : List String) (N : List String)
    (hU : ∀ (dep : String) (q : Package), q ∈ U.provided_by dep → q.name ∈ N) :
    ∀ fuel : Nat,
    (∀ self sol probs r,
      solutions_for_dep_problem I U O D fuel self sol probs = some r →
      self.name ∈ N → (∀ x ∈ sol.visited_packages, x.name ∈ N) →
      (∀ q ∈ probs, ∀ x ∈ q.get_relevant_packages, x.name ∈ N) →
      (∀ out ∈ r.1, ∀ x ∈ out.visited_packages, x.name ∈ N) ∧
      (∀ q ∈ r.2, ∀ x ∈ q.get_relevant_packages, x.name ∈ N)) ∧
    (∀ self deps cur probs r,
      depLoop I U O D fuel self deps cur probs = some r →
      self.name ∈ N → (∀ s ∈ cur, ∀ x ∈ s.visited_packages, x.name ∈ N) →
      (∀ q ∈ probs, ∀ x ∈ q.get_relevant_packages, x.name ∈ N) →
      (∀ out ∈ r.1, ∀ x ∈ out.visited_packages, x.name ∈ N) ∧
      (∀ q ∈ r.2, ∀ x ∈ q.get_relevant_packages, x.name ∈ N)) ∧
    (∀ self dep cur probs r,
      depStep I U O D fuel self dep cur probs = some r →
      self.name ∈ N → (∀ s ∈ cur, ∀ x ∈ s.visited_packages, x.name ∈ N) →
      (∀ q ∈ probs, ∀ x ∈ q.get_relevant_packages, x.name ∈ N) →
      (∀ out ∈ r.1, ∀ x ∈ out.visited_packages, x.name ∈ N) ∧
      (∀ q ∈ r.2, ∀ x ∈ q.get_relevant_packages, x.name ∈ N)) ∧
    (∀ notfin provs acc probs r,
      orLoop I U O D fuel notfin provs acc probs = some r →
      (∀ p ∈ provs, p.name ∈ N) → (∀ s ∈ notfin, ∀ x ∈ s.visited_packages, x.name ∈ N) →
      (∀ s ∈ acc, ∀ x ∈ s.visited_packages, x.name ∈ N) →
      (∀ q ∈ probs, ∀ x ∈ q.get_relevant_packages, x.name ∈ N) →
      (∀ out ∈ r.1, ∀ x ∈ out.visited_packages, x.name ∈ N) ∧
      (∀ q ∈ r.2, ∀ x ∈ q.get_relevant_packages, x.name ∈ N)) ∧
    (∀ sol provs acc probs r,
      provLoop I U O D fuel sol provs acc probs = some r →
      (∀ p ∈ provs, p.name ∈ N) → (∀ x ∈ sol.visited_packages, x.name ∈ N) →
      (∀ s ∈ acc, ∀ x ∈ s.visited_packages, x.name ∈ N) →
      (∀ q ∈ probs, ∀ x ∈ q.get_relevant_packages, x.name ∈ N) →
      (∀ out ∈ r.1, ∀ x ∈ out.visited_packages, x.name ∈ N) ∧
      (∀ q ∈ r.2, ∀ x ∈ q.get_relevant_packages, x.name ∈ N)) := by
  intro fuel
  induction fuel with
  | zero =>
    refine ⟨?_, ?_, ?_, ?_, ?_⟩
    · intro self sol probs r h
      exact absurd h (by simp [solutions_for_dep_problem])
    · intro self deps cur probs r h
      exact absurd h (by simp [depLoop])
    · intro self dep cur probs r h
      exact absurd h (by simp [depStep])
    · intro notfin provs acc probs r h
      exact absurd h (by simp [orLoop])
    · intro sol provs acc probs r h
      exact absurd h (by simp [provLoop])
  | succ n ih =>
    obtain ⟨ihE, ihL, ihS, ihO, ihP⟩ := ih
    refine ⟨?_, ?_, ?_, ?_, ?_⟩
    · -- solutions_for_dep_problem
      intro self sol probs r h hself hvis hprobs
      simp only [solutions_for_dep_problem] at h
      split at h
      · injection h with h1
        subst h1
        refine ⟨?_, hprobs⟩
        intro out hout
        rw [List.mem_singleton.mp hout]
        exact hvis
      · split at h
        · next hbranch =>
          split at h
          · injection h with h1
            subst h1
            refine ⟨by simp, ?_⟩
            intro q hq x hx
            rcases mem_addProblem hq with h1 | h1
            · exact hprobs q h1 x hx
            · rw [h1] at hx
              simp only [Problem.get_relevant_packages] at hx
              rcases List.mem_append.mp hx with h2 | h2
              · exact hvis x (List.mem_of_mem_drop h2)
              · exact (List.mem_singleton.mp h2) ▸ hself
          · injection h with h1
            subst h1
            exact ⟨by simp, hprobs⟩
        · split at h
          · injection h with h1
            subst h1
            refine ⟨?_, hprobs⟩
            intro out hout
            rw [List.mem_singleton.mp hout]
            exact hvis
          · split at h
            · exact absurd h (by simp)
            · next visited_sys heq =>
              split at h
              · exact absurd h (by simp)
              · next cur2 probs2 heq2 =>
                have hvis1 : ∀ x ∈ sol.visited_packages ++ [self], x.name ∈ N := by
                  intro x hx
                  rcases List.mem_append.mp hx with h1 | h1
                  · exact hvis x h1
                  · exact (List.mem_singleton.mp h1) ▸ hself
                have hprobs1 : ∀ q ∈ (if ((!(visited_sys.conflicting_with self).isEmpty) &&
                    sol.is_valid) = true then
                      addProblem probs (Problem.conflict
                        (mkConflictSet (visited_sys.conflicting_with self) self)
                        ((sol.visited_packages.drop (minIndexOf sol.visited_packages
                          (visited_sys.conflicting_with self))) ++ [self]))
                    else probs),
                    ∀ x ∈ q.get_relevant_packages, x.name ∈ N := by
                  split
                  · intro q hq x hx
                    rcases mem_addProblem hq with h1 | h1
                    · exact hprobs q h1 x hx
                    · rw [h1] at hx
                      simp only [Problem.get_relevant_packages] at hx
                      rcases mem_mkConflictSet_sub hx with h2 | h2
                      · exact hvis x (conflicting_with_mem heq h2)
                      · exact h2 ▸ hself
                  · exact hprobs
                obtain ⟨hv2, hp2⟩ := ihL self self.relevant_deps _ _ (cur2, probs2) heq2
                  hself (by
                    intro s hs
                    rw [List.mem_singleton.mp hs]
                    exact hvis1) hprobs1
                injection h with h1
                subst h1
                refine ⟨?_, ?_⟩
                · intro out hout
                  obtain ⟨s0, hs0, hmap⟩ := List.mem_map.mp hout
                  rw [← hmap]
                  exact hv2 s0 hs0
                · dsimp only
                  split
                  · intro q hq
                    exact absurd hq (by simp)
                  · exact hp2
    · -- depLoop
      intro self deps cur probs r h hself hcur hprobs
      cases deps with
      | nil =>
        simp only [depLoop] at h
        injection h with h1
        subst h1
        exact ⟨hcur, hprobs⟩
      | cons d ds =>
        simp only [depLoop] at h
        split at h
        · exact absurd h (by simp)
        · next cur1 probs1 heq1 =>
          obtain ⟨hv1, hp1⟩ := ihS self d cur probs (cur1, probs1) heq1 hself hcur hprobs
          exact ihL self ds cur1 probs1 r h hself hv1 hp1
    · -- depStep
      intro self dep cur probs r h hself hcur hprobs
      simp only [depStep] at h
      split at h
      · injection h with h1
        subst h1
        exact ⟨hcur, hprobs⟩
      · split at h
        · exact absurd h (by simp)
        · next fins notfins heqsplit =>
          have hcur1 : ∀ s ∈ (if (U.provided_by dep).isEmpty = true then
              markNotFulfilled dep cur else cur), ∀ x ∈ s.visited_packages, x.name ∈ N := by
            split
            · intro s hs
              obtain ⟨s0, hs0, hmap⟩ := List.mem_map.mp hs
              by_cases hc : s0.visited_names.contains dep
              · rw [if_pos hc] at hmap
                rw [← hmap]
                exact hcur s0 hs0
              · rw [if_neg hc] at hmap
                rw [← hmap]
                exact hcur s0 hs0
            · exact hcur
          have hprobs1 : ∀ q ∈ (if (U.provided_by dep).isEmpty = true then
              addProblem probs (Problem.notProvided dep self) else probs),
              ∀ x ∈ q.get_relevant_packages, x.name ∈ N := by
            split
            · intro q hq x hx
              rcases mem_addProblem hq with h1 | h1
              · exact hprobs q h1 x hx
              · rw [h1] at hx
                simp only [Problem.get_relevant_packages] at hx
                exact (List.mem_singleton.mp hx) ▸ hself
            · exact hprobs
          obtain ⟨hf, hnf⟩ := splitFinished_spec dep _ fins notfins heqsplit
          have hfv : ∀ s ∈ fins, ∀ x ∈ s.visited_packages, x.name ∈ N := by
            intro s hs
            rcases hf s hs with ⟨hs1, _⟩ | ⟨s0, hs0, hseq, _⟩
            · exact hcur1 s hs1
            · rw [hseq]
              exact hcur1 s0 hs0
          have hnfv : ∀ s ∈ notfins, ∀ x ∈ s.visited_packages, x.name ∈ N := by
            intro s hs
            obtain ⟨s0, hs0, hseq⟩ := hnf s hs
            rw [hseq]
            exact hcur1 s0 hs0
          have hprovs : ∀ p ∈ (if ((U.provided_by dep).map (fun p => p.name)).contains
                (strip_versioning_from_name dep) && !(D.contains dep) then
                (U.provided_by dep).filter (fun p => p.name == strip_versioning_from_name dep)
              else U.provided_by dep), p.name ∈ N := by
            split
            · intro p hp
              exact hU dep p (List.mem_of_mem_filter hp)
            · intro p hp
              exact hU dep p hp
          exact ihO notfins _ fins _ r h hprovs hnfv hfv hprobs1
    · -- orLoop
      intro notfin provs acc probs r h hprovs hnf hacc hprobs
      cases notfin with
      | nil =>
        simp only [orLoop] at h
        injection h with h1
        subst h1
        exact ⟨hacc, hprobs⟩
      | cons s ss =>
        simp only [orLoop] at h
        split at h
        · exact absurd h (by simp)
        · next acc1 probs1 heq1 =>
          obtain ⟨hv1, hp1⟩ := ihP s provs acc probs (acc1, probs1) heq1 hprovs
            (hnf s (List.mem_cons_self s ss)) hacc hprobs
          exact ihO ss provs acc1 probs1 r h hprovs
            (fun x hx => hnf x (List.mem_cons_of_mem s hx)) hv1 hp1
    · -- provLoop
      intro sol provs acc probs r h hprovs hsol hacc hprobs
      cases provs with
      | nil =>
        simp only [provLoop] at h
        injection h with h1
        subst h1
        exact ⟨hacc, hprobs⟩
      | cons p pt =>
        simp only [provLoop] at h
        split at h
        · exact absurd h (by simp)
        · next new1 probs1 heq1 =>
          obtain ⟨hv1, hp1⟩ := ihE p sol probs (new1, probs1) heq1
            (hprovs p (List.mem_cons_self p pt)) hsol hprobs
          have hacc1 : ∀ s ∈ acc ++ new1, ∀ x ∈ s.visited_packages, x.name ∈ N := by
            intro s hs
            rcases List.mem_append.mp hs with h1 | h1
            · exact hacc s h1
            · exact hv1 s h1
          exact ihP sol pt (acc ++ new1) probs1 r h
            (fun x hx => hprovs x (List.mem_cons_of_mem p hx)) hsol hacc1 hp1

/-- Names bound through the `for solution in current_solutions` loop of
`dep_solving`. -/
theorem namesSolLoop (I U : System) (O : Bool) (D : List String) (N : List String)
    (hU : ∀ (dep : String) (q : Package), q ∈ U.provided_by dep → q.name ∈ N)
    (efuel : Nat) (package : Package) (hname : package.name ∈ N) :
    ∀ (sols acc : List DepAlgoSolution) (probs : List Problem) r,
      solLoop I U O D efuel package sols acc probs = some r →
      (∀ s ∈ sols, ∀ x ∈ s.visited_packages, x.name ∈ N) →
      (∀ s ∈ acc, ∀ x ∈ s.visited_packages, x.name ∈ N) →
      (∀ q ∈ probs, ∀ x ∈ q.get_relevant_packages, x.name ∈ N) →
      (∀ out ∈ r.1, ∀ x ∈ out.visited_packages, x.name ∈ N) ∧
      (∀ q ∈ r.2, ∀ x ∈ q.get_relevant_packages, x.name ∈ N) := by
  intro sols
  induction sols with
  | nil =>
    intro acc probs r h hs hacc hprobs
    simp only [solLoop] at h
    injection h with h1
    subst h1
    exact ⟨hacc, hprobs⟩
  | cons s ss ih =>
    intro acc probs r h hs hacc hprobs
    simp only [solLoop] at h
    split at h
    · exact absurd h (by simp)
    · next news probs1 heq1 =>
      obtain ⟨hv1, hp1⟩ := (namesPack I U O D N hU efuel).1 package s probs (news, probs1)
        heq1 hname (hs s (List.mem_cons_self s ss)) hprobs
      have hacc1 : ∀ t ∈ acc ++ news, ∀ x ∈ t.visited_packages, x.name ∈ N := by
        intro t ht
        rcases List.mem_append.mp ht with h1 | h1
        · exact hacc t h1
        · exact hv1 t h1
      exact ih (acc ++ news) probs1 r h (fun t ht => hs t (List.mem_cons_of_mem s ht))
        hacc1 hp1

/-- Names bound through the `for package in packages` loop of
`dep_solving`: with every requested name and every upstream provider
name in `N`, the recorded problems only mention packages named in `N`. -/
theorem namesPkgLoop (I U : System) (O : Bool) (D : List String) (N : List String)
    (hU : ∀ (dep : String) (q : Package), q ∈ U.provided_by dep → q.name ∈ N)
    (efuel : Nat) :
    ∀ (pkgs : List Package) (cur : List DepAlgoSolution) (probs : List Problem) r,
      pkgLoop I U O D efuel pkgs cur probs = some r →
      (∀ p ∈ pkgs, p.name ∈ N) →
      (∀ s ∈ cur, ∀ x ∈ s.visited_packages, x.name ∈ N) →
      (∀ q ∈ probs, ∀ x ∈ q.get_relevant_packages, x.name ∈ N) →
      (∀ out ∈ r.1, ∀ x ∈ out.visited_packages, x.name ∈ N) ∧
      (∀ q ∈ r.2, ∀ x ∈ q.get_relevant_packages, x.name ∈ N) := by
  intro pkgs
  induction pkgs with
  | nil =>
    intro cur probs r h hp hcur hprobs
    simp only [pkgLoop] at h
    injection h with h1
    subst h1
    exact ⟨hcur, hprobs⟩
  | cons p pt ih =>
    intro cur probs r h hp hcur hprobs
    simp only [pkgLoop] at h
    split at h
    · exact absurd h (by simp)
    · next cur1 probs1 heq1 =>
      obtain ⟨hv1, hp1⟩ := namesSolLoop I U O D N hU efuel p
        (hp p (List.mem_cons_self p pt)) cur [] probs (cur1, probs1) heq1 hcur
        (by intro s hs; exact absurd hs (by simp))
        hprobs
      exact ih cur1 probs1 r h (fun x hx => hp x (List.mem_cons_of_mem p hx)) hv1 hp1

/-- A fold whose every step extends its accumulator on the right yields
an extension of the initial accumulator. -/
theorem foldl_append_ext {α : Type} (f : List String → α → List String)
    (hf : ∀ d a, ∃ t, f d a = d ++ t) :
    ∀ (l : List α) (d : List String), ∃ t, l.foldl f d = d ++ t := by
  intro l
  induction l with
  | nil => intro d; exact ⟨[], by simp⟩
  | cons a tl ih =>
    intro d
    obtain ⟨t1, ht1⟩ := hf d a
    obtain ⟨t2, ht2⟩ := ih (f d a)
    exact ⟨t1 ++ t2, by rw [List.foldl_cons, ht2, ht1, List.append_assoc]⟩

/-- A fold preserves an invariant when every step does. -/
theorem foldl_preserve {α β : Type} (P : β → Prop) (Q : α → Prop) (f : β → α → β)
    (hf : ∀ d a, P d → Q a → P (f d a)) :
    ∀ (l : List α), (∀ a ∈ l, Q a) → ∀ d, P d → P (l.foldl f d) := by
  intro l
  induction l with
  | nil => intro _ d hd; exact hd
  | cons a tl ih =>
    intro hQ d hd
    exact ih (fun x hx => hQ x (List.mem_cons_of_mem a hx)) (f d a)
      (hf d a hd (hQ a (List.mem_cons_self a tl)))

/-- `insertStr` extends the list on the right. -/
theorem insertStr_append (l : List String) (s : String) :
    ∃ t, insertStr l s = l ++ t := by
  unfold insertStr
  split
  · exact ⟨[], by simp⟩
  · exact ⟨[s], rfl⟩

/-- `insertStr` preserves duplicate-freedom. -/
theorem insertStr_nodup {l : List String} (s : String) (h : l.Nodup) :
    (insertStr l s).Nodup := by
  unfold insertStr
  split
  · exact h
  · next hc =>
    rw [List.nodup_append]
    refine ⟨h, List.nodup_singleton s, ?_⟩
    intro x hx1 hx2
    rw [List.mem_singleton.mp hx2] at hx1
    exact hc (by simpa using hx1)

/-- `insertStr` stays inside any superset containing the new element. -/
theorem insertStr_subset {l N : List String} {s : String}
    (hl : ∀ x ∈ l, x ∈ N) (hs : s ∈ N) : ∀ x ∈ insertStr l s, x ∈ N := by
  intro x hx
  unfold insertStr at hx
  split at hx
  · exact hl x hx
  · rcases List.mem_append.mp hx with h1 | h1
    · exact hl x h1
    · exact (List.mem_singleton.mp h1) ▸ hs

/-- The widening step extends `deps_to_deep_check` on the right. -/
theorem widenDeep_append (deep : List String) (probs : List Problem) :
    ∃ t, widenDeep deep probs = deep ++ t := by
  unfold widenDeep
  refine foldl_append_ext _ ?_ probs deep
  intro d p
  exact foldl_append_ext _ (fun d q => insertStr_append d q.name) p.get_relevant_packages d

/-- The widening step preserves duplicate-freedom and the name bound. -/
theorem widenDeep_good {N deep : List String} {probs : List Problem}
    (hd : deep.Nodup ∧ ∀ x ∈ deep, x ∈ N)
    (hp : ∀ q ∈ probs, ∀ x ∈ q.get_relevant_packages, x.name ∈ N) :
    (widenDeep deep probs).Nodup ∧ ∀ x ∈ widenDeep deep probs, x ∈ N := by
  unfold widenDeep
  refine foldl_preserve (fun d => d.Nodup ∧ ∀ x ∈ d, x ∈ N)
    (fun p => ∀ x ∈ p.get_relevant_packages, x.name ∈ N) _ ?_ probs hp deep hd
  intro d p hPd hQp
  refine foldl_preserve (fun d => d.Nodup ∧ ∀ x ∈ d, x ∈ N)
    (fun q => q.name ∈ N) _ ?_ p.get_relevant_packages hQp d hPd
  intro d q hPd hQ
  exact ⟨insertStr_nodup q.name hPd.1, insertStr_subset hPd.2 hQ⟩

/-- A duplicate-free list inside `N` is no longer than `N`. -/
theorem nodup_subset_length {l N : List String} (h1 : l.Nodup) (h2 : ∀ x ∈ l, x ∈ N) :
    l.length ≤ N.length := by
  have hc : l.toFinset.card ≤ N.toFinset.card :=
    Finset.card_le_card (fun x hx => List.mem_toFinset.mpr (h2 x (List.mem_toFinset.mp hx)))
  calc l.length = l.toFinset.card := (List.toFinset_card_of_nodup h1).symm
    _ ≤ N.toFinset.card := hc
    _ ≤ N.length := N.toFinset_card_le

/-- Fuel sufficiency for the widening loop: any duplicate-free
`deps_to_deep_check` inside the name universe `N` needs at most
`|N| + 1 - |deep|` iterations. -/
theorem depSolvingLoop_terminates (I U : System) (O : Bool) (efuel : Nat)
    (packages : List Package) (N : List String)
    (hU : ∀ (dep : String) (q : Package), q ∈ U.provided_by dep → q.name ∈ N)
    (hP : ∀ p ∈ packages, p.name ∈ N) :
    ∀ (k : Nat) (deep : List String), deep.Nodup → (∀ x ∈ deep, x ∈ N) →
      N.length + 1 - deep.length ≤ k →
      ∃ out, depSolvingLoop I U O efuel packages k deep = some out := by
  intro k
  induction k with
  | zero =>
    intro deep hnd hsub hb
    have := nodup_subset_length hnd hsub
    omega
  | succ k ih =>
    intro deep hnd hsub hb
    rcases hpk : pkgLoop I U O deep efuel packages [⟨[], [], [], true⟩] [] with _ | ⟨sols, probs⟩
    · exact ⟨LoopOut.abort, by simp [depSolvingLoop, hpk]⟩
    · by_cases hc1 : (!(sols.filter (fun s => s.is_valid)).isEmpty) = true
      · refine ⟨LoopOut.done (sols.filter (fun s => s.is_valid)) probs, ?_⟩
        simp only [depSolvingLoop, hpk]
        rw [if_pos hc1]
      · by_cases hc2 : ((widenDeep deep probs).length == deep.length) = true
        · refine ⟨LoopOut.done [] probs, ?_⟩
          simp only [depSolvingLoop, hpk]
          rw [if_neg hc1, if_pos hc2]
        · obtain ⟨_, hprobsN⟩ := namesPkgLoop I U O deep N hU efuel packages
            [⟨[], [], [], true⟩] [] (sols, probs) hpk hP
            (by
              intro s hs
              rw [List.mem_singleton.mp hs]
              intro x hx
              exact absurd hx (by simp))
            (by intro q hq; exact absurd hq (by simp))
          dsimp only at hprobsN
          obtain ⟨hnd1, hsub1⟩ := widenDeep_good ⟨hnd, hsub⟩ hprobsN
          obtain ⟨t, ht⟩ := widenDeep_append deep probs
          have hlen : deep.length + 1 ≤ (widenDeep deep probs).length := by
            rcases t with _ | ⟨a, t2⟩
            · exfalso
              apply hc2
              have hlq : (widenDeep deep probs).length = deep.length := by rw [ht]; simp
              simp [hlq]
            · rw [ht]
              simp only [List.length_append, List.length_cons]
              omega
          obtain ⟨out, hout⟩ := ih (widenDeep deep probs) hnd1 hsub1 (by omega)
          refine ⟨out, ?_⟩
          simp only [depSolvingLoop, hpk]
          rw [if_neg hc1, if_neg hc2]
          exact hout

/-- Claim C3: `dep_solving` terminates — the widening loop runs for at
most one iteration more than the size of the finite name universe (the
names of the requested packages together with the names of the packages
the upstream system was built from), because a non-final iteration
strictly grows the duplicate-free `deps_to_deep_check` list inside that
universe. -/
theorem claim_C3 (installed : System) (ups : List Package) (upstream : System)
    (O : Bool) (efuel : Nat) (packages : List Package)
    (hup : System.ofPackages ups = some upstream) :
    ∃ out, depSolvingLoop installed upstream O efuel packages
      (((packages.map Package.name ++ ups.map Package.name).dedup).length + 1) [] =
      some out := by
  have hU : ∀ (dep : String) (q : Package), q ∈ upstream.provided_by dep →
      q.name ∈ (packages.map Package.name ++ ups.map Package.name).dedup := by
    intro dep q hq
    exact List.mem_dedup.mpr (List.mem_append.mpr (Or.inr
      (List.mem_map.mpr ⟨q, provided_by_mem hup hq, rfl⟩)))
  have hP : ∀ p ∈ packages,
      p.name ∈ (packages.map Package.name ++ ups.map Package.name).dedup := by
    intro p hp
    exact List.mem_dedup.mpr (List.mem_append.mpr (Or.inl
      (List.mem_map.mpr ⟨p, hp, rfl⟩)))
  exact depSolvingLoop_terminates installed upstream O efuel packages _ hU hP _ []
    List.nodup_nil (by intro x hx; exact absurd hx (by simp)) (by simp)

/-- Witness for C3: the AUR dependency cycle fixture terminates within
the computed bound. -/
theorem claim_C3_witness :
    System.ofPackages [aurA, aurB] = some upAur ∧
    ∃ out, depSolvingLoop emptySystem upAur true 20 [aurA]
      ((([aurA].map Package.name ++ [aurA, aurB].map Package.name).dedup).length + 1) [] =
      some out :=
  ⟨by decide, claim_C3 emptySystem [aurA, aurB] upAur true 20 [aurA] (by decide)⟩

/-- `contains` on string lists agrees with membership. -/
theorem containsStr_iff {l : List String} {x : String} : l.contains x = true ↔ x ∈ l := by
  simp

/-- `SolRel` is reflexive. -/
theorem SolRel_refl (s : DepAlgoSolution) : SolRel s s :=
  ⟨⟨[], by simp⟩, ⟨[], by simp⟩, fun _ h => h, fun _ h => Or.inl h, fun h => h⟩

/-- `SolRel` is transitive. -/
theorem SolRel_trans {a b c : DepAlgoSolution} (h1 : SolRel a b) (h2 : SolRel b c) :
    SolRel a c := by
  obtain ⟨⟨t1, hp1⟩, ⟨u1, hv1⟩, hn1, hx1, hval1⟩ := h1
  obtain ⟨⟨t2, hp2⟩, ⟨u2, hv2⟩, hn2, hx2, hval2⟩ := h2
  refine ⟨⟨t1 ++ t2, by rw [hp2, hp1, List.append_assoc]⟩,
    ⟨u1 ++ u2, by rw [hv2, hv1, List.append_assoc]⟩,
    fun d hd => hn2 d (hn1 d hd), ?_, fun h => hval1 (hval2 h)⟩
  intro x hx
  rcases hx2 x hx with h3 | h3
  · rcases hx1 x h3 with h4 | h4
    · exact Or.inl h4
    · right
      rw [hp2, memPkg_append, h4]
      simp
  · exact Or.inr h3

/-- The element added by `insertStr` is contained afterwards. -/
theorem insertStr_contains_self (l : List String) (d : String) :
    (insertStr l d).contains d = true := by
  rw [containsStr_iff]
  unfold insertStr
  split
  · next h => exact containsStr_iff.mp h
  · simp

/-- `insertStr` keeps all previously contained elements. -/
theorem insertStr_contains_mono {l : List String} {x : String} (d : String)
    (h : l.contains x = true) : (insertStr l d).contains x = true := by
  rw [containsStr_iff] at h ⊢
  unfold insertStr
  split
  · exact h
  · exact List.mem_append.mpr (Or.inl h)

/-- Members of `insertStr l d` come from `l` or are `d`. -/
theorem insertStr_mem_cases {l : List String} {d x : String}
    (h : x ∈ insertStr l d) : x ∈ l ∨ x = d := by
  unfold insertStr at h
  split at h
  · exact Or.inl h
  · rcases List.mem_append.mp h with h1 | h1
    · exact Or.inl h1
    · exact Or.inr (List.mem_singleton.mp h1)

/-- Discharging the head pending dep of `GoodX` once it is skipped or
satisfied by a visited package. -/
theorem GoodX_discharge {I : System} {O : Bool} {X : List String} {d : String}
    {s : DepAlgoSolution} (h : GoodX I O (d :: X) s)
    (hd : s.is_valid = true → skipDep I O d = true ∨
      ∃ q, memPkg q s.visited_packages = true ∧ satisfiesDep q d = true) :
    GoodX I O X s := by
  intro hv
  obtain ⟨h1, h2, h3⟩ := h hv
  have hrepl : ∀ a, (d :: X).contains a = true →
      X.contains a = true ∨ skipDep I O a = true ∨
      ∃ q, memPkg q s.visited_packages = true ∧ satisfiesDep q a = true := by
    intro a ha
    rw [containsStr_iff] at ha
    rcases List.mem_cons.mp ha with ha1 | ha1
    · subst ha1
      rcases hd hv with h4 | h4
      · exact Or.inr (Or.inl h4)
      · exact Or.inr (Or.inr h4)
    · exact Or.inl (containsStr_iff.mpr ha1)
  refine ⟨?_, ?_, h3⟩
  · intro a ha
    rcases h1 a ha with h4 | h4 | h4
    · exact hrepl a h4
    · exact Or.inr (Or.inl h4)
    · exact Or.inr (Or.inr h4)
  · intro e he a ha
    rcases h2 e he a ha with h4 | h4 | h4
    · exact hrepl a h4
    · exact Or.inr (Or.inl h4)
    · exact Or.inr (Or.inr h4)

/-- Recording `d` as visited is covered by making `d` pending. -/
theorem GoodX_insertName {I : System} {O : Bool} {X : List String} {d : String}
    {s : DepAlgoSolution} (h : GoodX I O X s) :
    GoodX I O (d :: X) { s with visited_names := insertStr s.visited_names d } := by
  intro hv
  obtain ⟨h1, h2, h3⟩ := h hv
  have hw : ∀ a, X.contains a = true → (d :: X).contains a = true := by
    intro a ha
    rw [containsStr_iff] at ha ⊢
    exact List.mem_cons_of_mem d ha
  refine ⟨?_, ?_, h3⟩
  · intro a ha
    rcases insertStr_mem_cases (containsStr_iff.mp ha) with ha1 | ha1
    · rcases h1 a (containsStr_iff.mpr ha1) with h4 | h4 | h4
      · exact Or.inl (hw a h4)
      · exact Or.inr (Or.inl h4)
      · exact Or.inr (Or.inr h4)
    · subst ha1
      exact Or.inl (containsStr_iff.mpr (List.mem_cons_self a X))
  · intro e he a ha
    rcases h2 e he a ha with h4 | h4 | h4
    · exact Or.inl (hw a h4)
    · exact Or.inr (Or.inl h4)
    · exact Or.inr (Or.inr h4)

/-- Pushing a package onto `visited_packages` (with any no-stronger
validity flag) preserves `GoodX`. -/
theorem GoodX_pushVisited {I : System} {O : Bool} {X : List String}
    {s : DepAlgoSolution} {self : Package} {b : Bool}
    (hb : b = true → s.is_valid = true) (h : GoodX I O X s) :
    GoodX I O X
      { s with
        visited_packages := s.visited_packages ++ [self],
        is_valid := b } := by
  intro hv
  obtain ⟨h1, h2, h3⟩ := h (hb hv)
  refine ⟨?_, ?_, ?_⟩
  · intro a ha
    rcases h1 a ha with h4 | h4 | h4
    · exact Or.inl h4
    · exact Or.inr (Or.inl h4)
    · obtain ⟨q, hq, hsat⟩ := h4
      exact Or.inr (Or.inr ⟨q, by rw [memPkg_append, hq]; simp, hsat⟩)
  · intro e he a ha
    rcases h2 e he a ha with h4 | h4 | h4
    · exact Or.inl h4
    · exact Or.inr (Or.inl h4)
    · obtain ⟨q, hq, hsat⟩ := h4
      exact Or.inr (Or.inr ⟨q, by rw [memPkg_append, hq]; simp, hsat⟩)
  · intro x hx
    rw [memPkg_append, h3 x hx]
    simp

/-- `SolRel` for the name-recording step of `splitFinished`. -/
theorem SolRel_insertName (s : DepAlgoSolution) (d : String) :
    SolRel s { s with visited_names := insertStr s.visited_names d } :=
  ⟨⟨[], by simp⟩, ⟨[], by simp⟩, fun _ hx => insertStr_contains_mono d hx,
    fun _ hx => Or.inl hx, fun h => h⟩

/-- Elementwise characterization of `markNotFulfilled`. -/
theorem markNotFulfilled_mem {dep : String} {sols : List DepAlgoSolution}
    {x : DepAlgoSolution} (hx : x ∈ markNotFulfilled dep sols) :
    ∃ s ∈ sols, (x = s ∧ s.visited_names.contains dep = true) ∨
      x = { s with is_valid := false,
                   visited_names := insertStr s.visited_names dep } := by
  unfold markNotFulfilled at hx
  obtain ⟨s, hs, hmap⟩ := List.mem_map.mp hx
  by_cases hc : s.visited_names.contains dep
  · rw [if_pos hc] at hmap
    exact ⟨s, hs, Or.inl ⟨hmap.symm, hc⟩⟩
  · rw [if_neg hc] at hmap
    exact ⟨s, hs, Or.inr hmap.symm⟩

/-- Topological-closure pack: every solution returned by the expansion
functions extends its input (`SolRel`) and preserves the `GoodX`
invariant; after a dep loop every processed dep of a valid solution is
skipped or visited; loop outputs trace back to an input solution, with
the witnessing provider visited for branches forked on a provider. -/
theorem goodPack (I U : System) (O : Bool) (D : List String) (hUc : U.nameConsistent) :
    ∀ fuel : Nat,
    (∀ self sol probs r,
      solutions_for_dep_problem I U O D fuel self sol probs = some r →
      ∀ out ∈ r.1, SolRel sol out ∧
        ∀ X, GoodX I O X sol → GoodX I O X out ∧
          (out.is_valid = true → memPkg self out.visited_packages = true)) ∧
    (∀ self deps cur probs r,
      depLoop I U O D fuel self deps cur probs = some r →
      ∀ out ∈ r.1,
        (∃ s ∈ cur, SolRel s out ∧ ∀ X, GoodX I O X s → GoodX I O X out) ∧
        (out.is_valid = true → ∀ d ∈ deps, skipDep I O d = true ∨
          out.visited_names.contains d = true)) ∧
    (∀ self dep cur probs r,
      depStep I U O D fuel self dep cur probs = some r →
      ∀ out ∈ r.1,
        (∃ s ∈ cur, SolRel s out ∧ ∀ X, GoodX I O X s → GoodX I O X out) ∧
        (out.is_valid = true → skipDep I O dep = true ∨
          out.visited_names.contains dep = true)) ∧
    (∀ notfin provs acc probs r,
      orLoop I U O D fuel notfin provs acc probs = some r →
      ∀ out ∈ r.1, out ∈ acc ∨ ∃ s ∈ notfin, ∃ p ∈ provs, SolRel s out ∧
        ∀ X, GoodX I O X s → GoodX I O X out ∧
          (out.is_valid = true → memPkg p out.visited_packages = true)) ∧
    (∀ sol provs acc probs r,
      provLoop I U O D fuel sol provs acc probs = some r →
      ∀ out ∈ r.1, out ∈ acc ∨ ∃ p ∈ provs, SolRel sol out ∧
        ∀ X, GoodX I O X sol → GoodX I O X out ∧
          (out.is_valid = true → memPkg p out.visited_packages = true)) := by
  intro fuel
  induction fuel with
  | zero =>
    refine ⟨?_, ?_, ?_, ?_, ?_⟩
    · intro self sol probs r h
      exact absurd h (by simp [solutions_for_dep_problem])
    · intro self deps cur probs r h
      exact absurd h (by simp [depLoop])
    · intro self dep cur probs r h
      exact absurd h (by simp [depStep])
    · intro notfin provs acc probs r h
      exact absurd h (by simp [orLoop])
    · intro sol provs acc probs r h
      exact absurd h (by simp [provLoop])
  | succ n ih =>
    obtain ⟨ihE, ihL, ihS, ihO, ihP⟩ := ih
    refine ⟨?_, ?_, ?_, ?_, ?_⟩
    · -- solutions_for_dep_problem
      intro self sol probs r h
      simp only [solutions_for_dep_problem] at h
      split at h
      · next hc1 =>
        injection h with h1
        subst h1
        intro out hout
        rw [List.mem_singleton.mp hout]
        refine ⟨SolRel_refl sol, ?_⟩
        intro X hX
        exact ⟨hX, fun hv => (hX hv).2.2 self hc1⟩
      · split at h
        · split at h
          · injection h with h1
            subst h1
            intro out hout
            exact absurd hout (by simp)
          · injection h with h1
            subst h1
            intro out hout
            exact absurd hout (by simp)
        · split at h
          · next hc3 =>
            injection h with h1
            subst h1
            intro out hout
            rw [List.mem_singleton.mp hout]
            refine ⟨SolRel_refl sol, ?_⟩
            intro X hX
            exact ⟨hX, fun _ => hc3⟩
          · split at h
            · exact absurd h (by simp)
            · next visited_sys heq =>
              split at h
              · exact absurd h (by simp)
              · next cur2 probs2 heq2 =>
                injection h with h1
                subst h1
                intro out hout
                obtain ⟨s0, hs0, hmap⟩ := List.mem_map.mp hout
                obtain ⟨⟨s1, hs1, hrel1, hpres1⟩, hdeps⟩ := ihL self self.relevant_deps _ _
                  (cur2, probs2) heq2 s0 hs0
                have hs1eq := List.mem_singleton.mp hs1
                subst hs1eq
                have hb : (sol.is_valid && !(!(visited_sys.conflicting_with self).isEmpty))
                    = true → sol.is_valid = true := by
                  intro hh
                  simp at hh
                  exact hh.1
                obtain ⟨⟨t1, hp1⟩, ⟨u1, hv1⟩, hn1, hx1, hval1⟩ := hrel1
                dsimp only at hp1 hv1
                rw [← hmap]
                dsimp only
                have hselfvis : memPkg self s0.visited_packages = true := by
                  rw [hv1, memPkg_append, memPkg_append]
                  simp [memPkg, pkgEq_refl]
                refine ⟨⟨⟨t1 ++ [self], ?_⟩, ⟨[self] ++ u1, ?_⟩, ?_, ?_, ?_⟩, ?_⟩
                · dsimp only
                  rw [hp1, List.append_assoc]
                · dsimp only
                  rw [hv1, List.append_assoc]
                · exact fun d hd => hn1 d hd
                · intro x hx
                  dsimp only at hx ⊢
                  rcases hx1 x hx with h4 | h4
                  · have h5 : memPkg x (sol.visited_packages ++ [self]) = true := h4
                    rw [memPkg_append] at h5
                    simp only [Bool.or_eq_true] at h5
                    rcases h5 with h6 | h6
                    · exact Or.inl h6
                    · have h7 : pkgEq x self = true := by simpa [memPkg] using h6
                      right
                      rw [memPkg_append]
                      simp only [Bool.or_eq_true]
                      right
                      simp [memPkg, h7]
                  · right
                    rw [memPkg_append]
                    simp only [Bool.or_eq_true]
                    exact Or.inl h4
                · intro hv
                  exact hb (hval1 hv)
                · intro X hX
                  have hGs0 : GoodX I O X s0 := hpres1 X (GoodX_pushVisited hb hX)
                  refine ⟨?_, fun _ => hselfvis⟩
                  intro hv
                  obtain ⟨g1, g2, g3⟩ := hGs0 hv
                  refine ⟨g1, ?_, ?_⟩
                  · intro e he a ha
                    have he' : e ∈ s0.packages_in_solution ++ [self] := he
                    rcases List.mem_append.mp he' with h4 | h4
                    · exact g2 e h4 a ha
                    · rw [List.mem_singleton.mp h4] at ha
                      rcases hdeps hv a ha with h5 | h5
                      · exact Or.inr (Or.inl h5)
                      · exact g1 a h5
                  · intro x hx
                    have hx' : memPkg x (s0.packages_in_solution ++ [self]) = true := hx
                    rw [memPkg_append] at hx'
                    simp only [Bool.or_eq_true] at hx'
                    rcases hx' with h4 | h4
                    · exact g3 x h4
                    · have h7 : pkgEq x self = true := by simpa [memPkg] using h4
                      exact memPkg_of_pkgEq h7 hselfvis
    · -- depLoop
      intro self deps cur probs r h
      cases deps with
      | nil =>
        simp only [depLoop] at h
        injection h with h1
        subst h1
        intro out hout
        refine ⟨⟨out, hout, SolRel_refl out, fun X hX => hX⟩, ?_⟩
        intro _ d hd
        exact absurd hd (by simp)
      | cons d ds =>
        simp only [depLoop] at h
        split at h
        · exact absurd h (by simp)
        · next cur1 probs1 heq1 =>
          intro out hout
          obtain ⟨⟨s1, hs1, hrel1, hpres1⟩, hds⟩ := ihL self ds cur1 probs1 r h out hout
          obtain ⟨⟨s, hs, hrel0, hpres0⟩, hd1⟩ := ihS self d cur probs (cur1, probs1) heq1
            s1 hs1
          refine ⟨⟨s, hs, SolRel_trans hrel0 hrel1, fun X hX => hpres1 X (hpres0 X hX)⟩, ?_⟩
          intro hv a ha
          rcases List.mem_cons.mp ha with ha1 | ha1
          · subst ha1
            rcases hd1 (hrel1.2.2.2.2 hv) with h2 | h2
            · exact Or.inl h2
            · exact Or.inr (hrel1.2.2.1 a h2)
          · exact hds hv a ha1
    · -- depStep
      intro self dep cur probs r h
      simp only [depStep] at h
      split at h
      · next hskip =>
        injection h with h1
        subst h1
        intro out hout
        refine ⟨⟨out, hout, SolRel_refl out, fun X hX => hX⟩, ?_⟩
        intro _
        left
        unfold skipDep
        exact hskip
      · split at h
        · exact absurd h (by simp)
        · next fins notfins heqsplit =>
          have hcur1 : ∀ s0 ∈ (if (U.provided_by dep).isEmpty = true then
              markNotFulfilled dep cur else cur),
              ∃ s ∈ cur, SolRel s s0 ∧ (∀ X, GoodX I O X s → GoodX I O X s0) := by
            split
            · intro s0 hs0
              obtain ⟨s, hs, hcases⟩ := markNotFulfilled_mem hs0
              rcases hcases with ⟨heqx, _⟩ | heqx
              · subst heqx
                exact ⟨s0, hs, SolRel_refl s0, fun X hX => hX⟩
              · subst heqx
                refine ⟨s, hs, ?_, ?_⟩
                · exact ⟨⟨[], by simp⟩, ⟨[], by simp⟩,
                    fun d hd => insertStr_contains_mono dep hd,
                    fun x hx => Or.inl hx, fun hv => absurd hv (by simp)⟩
                · intro X hX hv
                  exact absurd hv (by simp)
            · intro s0 hs0
              exact ⟨s0, hs0, SolRel_refl s0, fun X hX => hX⟩
          have hprovs1 : ∀ p ∈ (if ((U.provided_by dep).map (fun p => p.name)).contains
                (strip_versioning_from_name dep) && !(D.contains dep) then
                (U.provided_by dep).filter (fun p => p.name == strip_versioning_from_name dep)
              else U.provided_by dep), p ∈ U.provided_by dep := by
            split
            · intro p hp
              exact List.mem_of_mem_filter hp
            · intro p hp
              exact hp
          obtain ⟨hfspec, hnfspec⟩ := splitFinished_spec dep _ fins notfins heqsplit
          intro out hout
          rcases ihO notfins _ fins _ r h out hout with hacc | ⟨s', hs', p, hp, hrel2, hpres2⟩
          · rcases hfspec out hacc with ⟨hmem, hcont⟩ | ⟨s0, hs0, hout_eq, sys, hsys, hne⟩
            · obtain ⟨s, hs, hrelA, hpresA⟩ := hcur1 out hmem
              exact ⟨⟨s, hs, hrelA, hpresA⟩, fun _ => Or.inr hcont⟩
            · obtain ⟨s, hs, hrelA, hpresA⟩ := hcur1 s0 hs0
              subst hout_eq
              refine ⟨⟨s, hs, SolRel_trans hrelA (SolRel_insertName s0 dep), ?_⟩, ?_⟩
              · intro X hX
                have hG2 : GoodX I O (dep :: X)
                    { s0 with visited_names := insertStr s0.visited_names dep } :=
                  GoodX_insertName (hpresA X hX)
                refine GoodX_discharge hG2 ?_
                intro hv
                right
                have hnenil : sys.provided_by dep ≠ [] := by
                  intro hq0
                  rw [hq0] at hne
                  simp at hne
                obtain ⟨q, hq⟩ := List.exists_mem_of_ne_nil _ hnenil
                obtain ⟨_, _, g3⟩ := hG2 hv
                exact ⟨q, g3 q (memPkg_of_mem (provided_by_mem hsys hq)),
                  provided_by_satisfies (ofPackages_nameConsistent hsys) hq⟩
              · intro _
                right
                exact insertStr_contains_self s0.visited_names dep
          · obtain ⟨s0, hs0, hs'eq⟩ := hnfspec s' hs'
            obtain ⟨s, hs, hrelA, hpresA⟩ := hcur1 s0 hs0
            subst hs'eq
            refine ⟨⟨s, hs,
              SolRel_trans (SolRel_trans hrelA (SolRel_insertName s0 dep)) hrel2, ?_⟩, ?_⟩
            · intro X hX
              have hG1 : GoodX I O (dep :: X)
                  { s0 with visited_names := insertStr s0.visited_names dep } :=
                GoodX_insertName (hpresA X hX)
              obtain ⟨hG2, hmemp⟩ := hpres2 (dep :: X) hG1
              refine GoodX_discharge hG2 ?_
              intro hv
              right
              exact ⟨p, hmemp hv, provided_by_satisfies hUc (hprovs1 p hp)⟩
            · intro _
              right
              exact hrel2.2.2.1 dep (insertStr_contains_self s0.visited_names dep)
    · -- orLoop
      intro notfin provs acc probs r h
      cases notfin with
      | nil =>
        simp only [orLoop] at h
        injection h with h1
        subst h1
        intro out hout
        exact Or.inl hout
      | cons s ss =>
        simp only [orLoop] at h
        split at h
        · exact absurd h (by simp)
        · next acc1 probs1 heq1 =>
          intro out hout
          rcases ihO ss provs acc1 probs1 r h out hout with hacc | ⟨s', hs', rest⟩
          · rcases ihP s provs acc probs (acc1, probs1) heq1 out hacc with h2 | ⟨p, hp, rest2⟩
            · exact Or.inl h2
            · exact Or.inr ⟨s, List.mem_cons_self s ss, p, hp, rest2⟩
          · exact Or.inr ⟨s', List.mem_cons_of_mem s hs', rest⟩
    · -- provLoop
      intro sol provs acc probs r h
      cases provs with
      | nil =>
        simp only [provLoop] at h
        injection h with h1
        subst h1
        intro out hout
        exact Or.inl hout
      | cons p pt =>
        simp only [provLoop] at h
        split at h
        · exact absurd h (by simp)
        · next news probs1 heq1 =>
          intro out hout
          rcases ihP sol pt (acc ++ news) probs1 r h out hout with hacc | ⟨p', hp', rest⟩
          · rcases List.mem_append.mp hacc with h2 | h2
            · exact Or.inl h2
            · exact Or.inr ⟨p, List.mem_cons_self p pt,
                ihE p sol probs (news, probs1) heq1 out h2⟩
          · exact Or.inr ⟨p', List.mem_cons_of_mem p hp', rest⟩

/-- The per-solution loop of `dep_solving` preserves the closed-solution
invariant: `GoodX` with no pending deps, and every visited package
selected. -/
theorem solLoopGood (I U : System) (O : Bool) (D : List String) (hUc : U.nameConsistent)
    (efuel : Nat) (package : Package) :
    ∀ (sols acc : List DepAlgoSolution) (probs : List Problem) r,
      solLoop I U O D efuel package sols acc probs = some r →
      (∀ s ∈ sols, GoodX I O [] s ∧
        (∀ x, memPkg x s.visited_packages = true →
          memPkg x s.packages_in_solution = true)) →
      (∀ s ∈ acc, GoodX I O [] s ∧
        (∀ x, memPkg x s.visited_packages = true →
          memPkg x s.packages_in_solution = true)) →
      ∀ out ∈ r.1, GoodX I O [] out ∧
        (∀ x, memPkg x out.visited_packages = true →
          memPkg x out.packages_in_solution = true) := by
  intro sols
  induction sols with
  | nil =>
    intro acc probs r h hs hacc
    simp only [solLoop] at h
    injection h with h1
    subst h1
    exact hacc
  | cons s ss ih =>
    intro acc probs r h hs hacc
    simp only [solLoop] at h
    split at h
    · exact absurd h (by simp)
    · next news probs1 heq1 =>
      refine ih (acc ++ news) probs1 r h (fun t ht => hs t (List.mem_cons_of_mem s ht)) ?_
      intro t ht
      rcases List.mem_append.mp ht with h1 | h1
      · exact hacc t h1
      · obtain ⟨hrel, hpres⟩ := (goodPack I U O D hUc efuel).1 package s probs
          (news, probs1) heq1 t h1
        refine ⟨(hpres [] (hs s (List.mem_cons_self s ss)).1).1, ?_⟩
        intro x hx
        rcases hrel.2.2.2.1 x hx with h2 | h2
        · obtain ⟨t1, ht1⟩ := hrel.1
          rw [ht1, memPkg_append, (hs s (List.mem_cons_self s ss)).2 x h2]
          simp
        · exact h2

/-- The per-package loop of `dep_solving` preserves the closed-solution
invariant. -/
theorem pkgLoopGood (I U : System) (O : Bool) (D : List String) (hUc : U.nameConsistent)
    (efuel : Nat) :
    ∀ (pkgs : List Package) (cur : List DepAlgoSolution) (probs : List Problem) r,
      pkgLoop I U O D efuel pkgs cur probs = some r →
      (∀ s ∈ cur, GoodX I O [] s ∧
        (∀ x, memPkg x s.visited_packages = true →
          memPkg x s.packages_in_solution = true)) →
      ∀ out ∈ r.1, GoodX I O [] out ∧
        (∀ x, memPkg x out.visited_packages = true →
          memPkg x out.packages_in_solution = true) := by
  intro pkgs
  induction pkgs with
  | nil =>
    intro cur probs r h hcur
    simp only [pkgLoop] at h
    injection h with h1
    subst h1
    exact hcur
  | cons p pt ih =>
    intro cur probs r h hcur
    simp only [pkgLoop] at h
    split at h
    · exact absurd h (by simp)
    · next cur1 probs1 heq1 =>
      exact ih cur1 probs1 r h (solLoopGood I U O D hUc efuel p cur [] probs
        (cur1, probs1) heq1 hcur (by intro t ht; exact absurd ht (by simp)))

/-- Solutions carried out of the widening loop by a `done` outcome are
valid, carry the no-pending `GoodX` invariant, and visit only selected
packages. -/
theorem depSolvingLoopGood (I U : System) (O : Bool) (hUc : U.nameConsistent)
    (efuel : Nat) (packages : List Package) :
    ∀ (lfuel : Nat) (deep : List String) (sols : List DepAlgoSolution)
      (probs : List Problem),
      depSolvingLoop I U O efuel packages lfuel deep = some (LoopOut.done sols probs) →
      ∀ s ∈ sols, s.is_valid = true ∧ GoodX I O [] s ∧
        (∀ x, memPkg x s.visited_packages = true →
          memPkg x s.packages_in_solution = true) := by
  intro lfuel
  induction lfuel with
  | zero =>
    intro deep sols probs h
    exact absurd h (by simp [depSolvingLoop])
  | succ n ih =>
    intro deep sols probs h
    rcases hpk : pkgLoop I U O deep efuel packages [⟨[], [], [], true⟩] [] with
      _ | ⟨sols0, probs0⟩
    · simp only [depSolvingLoop, hpk] at h
      injection h with h1
      exact LoopOut.noConfusion h1
    · simp only [depSolvingLoop, hpk] at h
      split at h
      · injection h with h1
        injection h1 with h2 h3
        subst h2
        intro s hs
        have hsm := List.mem_filter.mp hs
        have hval : s.is_valid = true := by simpa using hsm.2
        have hinit : ∀ t ∈ ([⟨[], [], [], true⟩] : List DepAlgoSolution),
            GoodX I O [] t ∧ (∀ x, memPkg x t.visited_packages = true →
              memPkg x t.packages_in_solution = true) := by
          intro t ht
          rw [List.mem_singleton.mp ht]
          refine ⟨?_, ?_⟩
          · intro _
            refine ⟨?_, ?_, ?_⟩
            · intro d hd
              exact absurd hd (by simp)
            · intro e he
              exact absurd he (by simp)
            · intro x hx
              exact absurd hx (by simp [memPkg])
          · intro x hx
            exact absurd hx (by simp [memPkg])
        obtain ⟨hG, hInv⟩ := pkgLoopGood I U O deep hUc efuel packages
          [⟨[], [], [], true⟩] [] (sols0, probs0) hpk hinit s hsm.1
        exact ⟨hval, hG, hInv⟩
      · split at h
        · injection h with h1
          injection h1 with h2 h3
          subst h2
          intro s hs
          exact absurd hs (by simp)
        · exact ih _ sols probs h

/-- Claim C1 (amended): every plan returned by `dep_solving` is
dependency-closed — for every package of the plan, each of its relevant
dep atoms is either skipped (`only_unfulfilled_deps` with the installed
system providing it) or satisfied by some member of the same plan. The
strict `j < i` topological order of the original claim fails on
dependency cycles (see the counterexample); closure is what the
post-order append guarantees. -/
theorem claim_C1_amended (installed upstream : System) (O : Bool)
    (hUc : upstream.nameConsistent) (efuel lfuel : Nat) (packages : List Package)
    (plans : List (List Package))
    (h : Package.dep_solving efuel lfuel packages installed upstream O = some plans) :
    ∀ plan ∈ plans, ∀ p ∈ plan, ∀ a ∈ p.relevant_deps,
      skipDep installed O a = true ∨
      ∃ q, memPkg q plan = true ∧ satisfiesDep q a = true := by
  unfold Package.dep_solving at h
  rcases hl : depSolvingLoop installed upstream O efuel packages lfuel [] with _ | lout
  · rw [hl] at h
    exact absurd h (by simp)
  · rw [hl] at h
    cases lout with
    | abort => exact absurd h (by simp)
    | done sols probs =>
      injection h with h1
      subst h1
      intro plan hplan p hp a ha
      obtain ⟨s, hs, hmap⟩ := List.mem_map.mp hplan
      obtain ⟨hv, hG, hInv⟩ := depSolvingLoopGood installed upstream O hUc efuel packages
        lfuel [] sols probs hl s hs
      obtain ⟨g1, g2, g3⟩ := hG hv
      rw [← hmap] at hp ⊢
      rcases g2 p hp a ha with h4 | h4 | h4
      · exact absurd h4 (by simp)
      · exact Or.inl h4
      · obtain ⟨q, hq, hsat⟩ := h4
        exact Or.inr ⟨q, hInv q hq, hsat⟩

/-- Witness for the amended C1: the REPO dependency cycle returns the
plan `[repoB, repoA]`, which is dependency-closed though not strictly
ordered. -/
theorem claim_C1_witness :
    upRepo.nameConsistent ∧
    Package.dep_solving 20 2 [repoA] emptySystem upRepo true = some [[repoB, repoA]] ∧
    ∀ plan ∈ [[repoB, repoA]], ∀ p ∈ plan, ∀ a ∈ p.relevant_deps,
      skipDep emptySystem true a = true ∨
      ∃ q, memPkg q plan = true ∧ satisfiesDep q a = true :=
  ⟨by unfold System.nameConsistent; decide, by decide,
    claim_C1_amended emptySystem upRepo true (by unfold System.nameConsistent; decide)
      20 2 [repoA] [[repoB, repoA]] (by decide)⟩
